import Mathlib

/-!
Verification development for the dooms_deal_clock repository.

Texts are modelled as lists of Unicode characters (Lean Char, one entry per
codepoint, matching Python string indexing).  The regular expressions of the
source are embedded as explicit backtracking matchers that follow Python re
semantics for the concrete patterns used by the code: leftmost match wins and
the greedy quantifier in a 1-to-2 digit group first tries two digits, then one.
The digit class models the ASCII digits 0-9 and the whitespace class models the
ASCII whitespace characters; Python would additionally accept rare non-ASCII
digit and space codepoints, which are outside the modelled alphabet.
-/

/-- Models the character class of a decimal digit, as used by the patterns of
src/app/services/parser.py and src/app/telegram_api/client.py. -/
def isDigitCh (c : Char) : Bool := 48 ≤ c.toNat && c.toNat ≤ 57

/-- Numeric value of a digit character, as computed by int() on a digit. -/
def digitVal (c : Char) : Nat := c.toNat - 48

/-- Models the Python whitespace class (str.strip and the regex class \s),
restricted to the ASCII whitespace characters. -/
def pyIsSpace (c : Char) : Bool :=
  c.toNat == 32 || c.toNat == 9 || c.toNat == 10 || c.toNat == 13 ||
  c.toNat == 11 || c.toNat == 12

/-- Models str.lower() for the alphabets that occur in the parser keywords:
ASCII letters and the Cyrillic letters used by the keyword list. -/
def toLowerPy (c : Char) : Char :=
  if 65 ≤ c.toNat && c.toNat ≤ 90 then Char.ofNat (c.toNat + 32)
  else if 1040 ≤ c.toNat && c.toNat ≤ 1071 then Char.ofNat (c.toNat + 32)
  else if c.toNat == 1025 then Char.ofNat 1105
  else c

/-- Lowercasing of a whole text, charwise like str.lower(). -/
def pyLower (l : List Char) : List Char := l.map toLowerPy

/-- Drops the leading whitespace of a text. -/
def dropLead (l : List Char) : List Char := l.dropWhile pyIsSpace

/-- Drops the trailing whitespace of a text. -/
def dropTrail (l : List Char) : List Char := (l.reverse.dropWhile pyIsSpace).reverse

/-- Models str.strip(): removes leading and trailing whitespace. -/
def pyStrip (l : List Char) : List Char := dropTrail (dropLead l)

/-- Separator class of the colon character, for the patterns using a colon. -/
def sepColon (c : Char) : Bool := c.toNat == 58

/-- Separator class of the dot character, for the patterns using a dot. -/
def sepDot (c : Char) : Bool := c.toNat == 46

/-- Separator class of the regex character class with a colon or a dot, used
by the time-removal pattern of the description cleanup. -/
def sepColonOrDot (c : Char) : Bool := c.toNat == 58 || c.toNat == 46

/-- Result of matching one time pattern at a fixed position: the numeric
values of the captured groups, the consumed characters and the remainder. -/
structure TimeMatch where
  g1 : Nat
  g2 : Nat
  g3 : Option Nat
  consumed : List Char
  rest : List Char
deriving DecidableEq

/-- Shape selector for the shared pattern matcher: a two-group pattern, a
three-group pattern, or a pattern with a greedy optional third group. -/
inductive TMode
  | two
  | three
  | optThree
deriving DecidableEq

/-- Tries the alternatives of a backtracking point in order. -/
def firstSome {α β : Type} : List α → (α → Option β) → Option β
  | [], _ => none
  | a :: as, f =>
    match f a with
    | some b => some b
    | none => firstSome as f

/-- Matches exactly two digits, the regex fragment of a two-digit group. -/
def take2Digits : List Char → Option (Nat × List Char × List Char)
  | a :: b :: rest =>
    if isDigitCh a && isDigitCh b then
      some (10 * digitVal a + digitVal b, [a, b], rest)
    else none
  | _ => none

/-- Greedy candidates of the one-or-two-digit group: Python re first tries to
consume two digits and only then backtracks to one digit. -/
def take12Cands : List Char → List (Nat × List Char × List Char)
  | [] => []
  | [a] => if isDigitCh a then [(digitVal a, [a], [])] else []
  | a :: b :: rest =>
    if isDigitCh a then
      if isDigitCh b then
        [(10 * digitVal a + digitVal b, [a, b], rest), (digitVal a, [a], b :: rest)]
      else [(digitVal a, [a], b :: rest)]
    else []

/-- Continues a first-group candidate with a separator and a two-digit group. -/
def matchPairFrom (sep : Char → Bool) : Nat × List Char × List Char → Option TimeMatch
  | (g1, c1, s :: r2) =>
    if sep s then
      match take2Digits r2 with
      | some (g2, c2, r3) => some ⟨g1, g2, none, c1 ++ s :: c2, r3⟩
      | none => none
    else none
  | (_, _, []) => none

/-- Extends a two-group match with another separator and two-digit group. -/
def extendThree (sep : Char → Bool) (tm : TimeMatch) : Option TimeMatch :=
  match tm.rest with
  | s :: r2 =>
    if sep s then
      match take2Digits r2 with
      | some (g3, c3, r4) => some ⟨tm.g1, tm.g2, some g3, tm.consumed ++ s :: c3, r4⟩
      | none => none
    else none
  | [] => none

/-- Matches one of the time patterns at the start of the text, with the
backtracking order of Python re for these concrete patterns. -/
def matchTimeAt (sep : Char → Bool) (mode : TMode) (l : List Char) : Option TimeMatch :=
  firstSome (take12Cands l) (fun cand =>
    match matchPairFrom sep cand with
    | none => none
    | some tm =>
      match mode with
      | TMode.two => some tm
      | TMode.three => extendThree sep tm
      | TMode.optThree =>
        match extendThree sep tm with
        | some tm3 => some tm3
        | none => some tm)

/-- Models re.search: tries every start position from the left and returns
the first position where the pattern matches. -/
def searchFrom (m : List Char → Option TimeMatch) : List Char → Option TimeMatch
  | [] => m []
  | c :: t =>
    match m (c :: t) with
    | some r => some r
    | none => searchFrom m t

/-- Search for the colon-separated three-group pattern of the parser. -/
def searchColonTriple (l : List Char) : Option TimeMatch :=
  searchFrom (matchTimeAt sepColon TMode.three) l

/-- Search for the colon-separated two-group pattern of the parser. -/
def searchColonPair (l : List Char) : Option TimeMatch :=
  searchFrom (matchTimeAt sepColon TMode.two) l

/-- Search for the dot-separated three-group pattern of the parser. -/
def searchDotTriple (l : List Char) : Option TimeMatch :=
  searchFrom (matchTimeAt sepDot TMode.three) l

/-- Search for the dot-separated two-group pattern of the parser. -/
def searchDotPair (l : List Char) : Option TimeMatch :=
  searchFrom (matchTimeAt sepDot TMode.two) l

/-- Decimal digit character of a value between 0 and 9; only applied to
values below ten, where it agrees with Python decimal formatting. -/
def digChar : Nat → Char
  | 0 => '0'
  | 1 => '1'
  | 2 => '2'
  | 3 => '3'
  | 4 => '4'
  | 5 => '5'
  | 6 => '6'
  | 7 => '7'
  | 8 => '8'
  | _ => '9'

/-- Models the 02d format specifier for group values, which the patterns bound
by 99, so the output is always exactly two digits. -/
def pad2 (n : Nat) : List Char := [digChar (n / 10), digChar (n % 10)]

/-- Formatted time of three group values, as in the f-string of the parser. -/
def fmtTriple (a b c : Nat) : List Char :=
  pad2 a ++ ':' :: (pad2 b ++ ':' :: pad2 c)

/-- Embedding of MessageParser._extract_time of src/app/services/parser.py:
tries the four patterns in their listed order, first match wins; three groups
format as HH:MM:SS and two groups as HH:MM:00. -/
def extract_time (text : List Char) : Option (List Char) :=
  match searchColonTriple text with
  | some tm => some (fmtTriple tm.g1 tm.g2 (tm.g3.getD 0))
  | none =>
    match searchColonPair text with
    | some tm => some (fmtTriple tm.g1 tm.g2 0)
    | none =>
      match searchDotTriple text with
      | some tm => some (fmtTriple tm.g1 tm.g2 (tm.g3.getD 0))
      | none =>
        match searchDotPair text with
        | some tm => some (fmtTriple tm.g1 tm.g2 0)
        | none => none

/-- Whether the second list occurs at the head of the first list. -/
def leadsWith : List Char → List Char → Bool
  | _, [] => true
  | [], _ :: _ => false
  | a :: as, b :: bs => a == b && leadsWith as bs

/-- Models the Python substring test: the needle occurs somewhere in the hay. -/
def containsSub (hay needle : List Char) : Bool :=
  match hay with
  | [] => needle.isEmpty
  | _ :: t => leadsWith hay needle || containsSub t needle

/-- The keyword list of MessageParser, lowercase Russian domain words. -/
def clockKeywords : List (List Char) :=
  ["час".data, "время".data, "минут".data, "секунд".data, "договор".data,
   "соглашение".data, "сделка".data, "судного".data, "до".data,
   "остается".data, "осталось".data]

/-- Embedding of MessageParser._contains_clock_keywords: true iff one of the
keywords is a substring of the given text. -/
def contains_clock_keywords (text : List Char) : Bool :=
  clockKeywords.any (fun k => containsSub text k)

/-- The time-removal pattern of the description cleanup: one-or-two digits, a
colon or dot, two digits, and a greedy optional colon-or-dot plus two digits. -/
def matchTimeLike (l : List Char) : Option TimeMatch :=
  matchTimeAt sepColonOrDot TMode.optThree l

/-- One pass of re.sub over the text with a fuel bound: on a match the matched
span is dropped and scanning continues after it, otherwise one character is
kept.  The fuel is instantiated with the text length, which always suffices. -/
def subTimeGo : Nat → List Char → List Char
  | 0, l => l
  | _ + 1, [] => []
  | fuel + 1, c :: t =>
    match matchTimeLike (c :: t) with
    | some tm => subTimeGo fuel tm.rest
    | none => c :: subTimeGo fuel t

/-- Models re.sub of the time-like pattern with the empty replacement: removes
every leftmost-first non-overlapping match. -/
def subTimeAll (l : List Char) : List Char := subTimeGo l.length l

/-- The clock emoji characters removed by the description cleanup: the clock
face range U+1F550 to U+1F567 and the six extra symbols of the class. -/
def isClockEmoji (c : Char) : Bool :=
  (128336 ≤ c.toNat && c.toNat ≤ 128359) || c.toNat == 9200 || c.toNat == 9201 ||
  c.toNat == 9202 || c.toNat == 128276 || c.toNat == 127919 || c.toNat == 9889

/-- Models re.sub of the emoji character class with the empty replacement. -/
def removeEmoji (l : List Char) : List Char := l.filter (fun c => !isClockEmoji c)

/-- Models re.sub of one-or-more whitespace with a single space: every maximal
whitespace run becomes one space character. -/
def collapseGo : Bool → List Char → List Char
  | _, [] => []
  | inWs, c :: t =>
    if pyIsSpace c then
      if inWs then collapseGo true t else ' ' :: collapseGo true t
    else c :: collapseGo false t

/-- Whitespace collapsing of a whole text. -/
def collapseWs (l : List Char) : List Char := collapseGo false l

/-- The fallback description of the parser (a fixed Russian phrase). -/
def fallbackDescription : List Char :=
  "Время до заключения эпохального соглашения".data

/-- Embedding of MessageParser._extract_description of
src/app/services/parser.py.  The keyword, fallback and emoji constants follow
the strings witnessed by the repository tests; the copy of parser.py in this
snapshot stores them through a lossy double encoding.  The time_str parameter
is accepted and ignored exactly as in the source. -/
def extract_description (text : List Char) (time_str : List Char) : List Char :=
  let t1 := pyStrip (subTimeAll text)
  let t2 := removeEmoji t1
  let t3 := pyStrip (collapseWs t2)
  if t3 = [] || t3.length < 10 then fallbackDescription else t3.take 200

/-- The transient parse result of the parser (dataclass ClockData). -/
structure ClockData where
  time : List Char
  description : List Char
  raw_message : List Char
deriving DecidableEq

/-- Embedding of MessageParser.parse_message of src/app/services/parser.py:
empty text fails, then the text is stripped, gated on keywords of the lowered
text, a time is extracted, and the description is built. -/
def parse_message (message_text : List Char) : Option ClockData :=
  if message_text = [] then none
  else
    let t := pyStrip message_text
    if contains_clock_keywords (pyLower t) then
      match extract_time t with
      | some time => some ⟨time, extract_description t time, t⟩
      | none => none
    else none

/-- Search for the colon three-group pattern of the Telegram client. -/
def clientColonTriple (l : List Char) : Option TimeMatch :=
  searchFrom (matchTimeAt sepColon TMode.three) l

/-- Search for the colon two-group pattern of the Telegram client. -/
def clientColonPair (l : List Char) : Option TimeMatch :=
  searchFrom (matchTimeAt sepColon TMode.two) l

/-- Search for the dot two-group pattern of the Telegram client. -/
def clientDotPair (l : List Char) : Option TimeMatch :=
  searchFrom (matchTimeAt sepDot TMode.two) l

/-- Embedding of TelegramService.extract_time_from_message of
src/app/telegram_api/client.py: tries the colon triple, colon pair and dot
pair patterns in order and returns the matched substring verbatim. -/
def extract_time_from_message (message_text : List Char) : Option (List Char) :=
  match clientColonTriple message_text with
  | some tm => some tm.consumed
  | none =>
    match clientColonPair message_text with
    | some tm => some tm.consumed
    | none =>
      match clientDotPair message_text with
      | some tm => some tm.consumed
      | none => none

/-- Matches a string of shape HH:MM:SS with zero-padded two-digit fields. -/
def isHHMMSS : List Char → Bool
  | [a, b, s1, d, e, s2, f, g] =>
    isDigitCh a && isDigitCh b && sepColon s1 && isDigitCh d && isDigitCh e &&
    sepColon s2 && isDigitCh f && isDigitCh g
  | _ => false


/-!
Ingestion pipeline model.  A channel message carries the attributes the
service reads: id, text, date and the media payload already resolved to the
optional base64 string produced by get_message_image_data (that helper
swallows download errors into none).  The badDate flag marks a message whose
date comparison with the cutoff raises (a naive datetime), the per-message
error the windowed iterator catches.  Datetimes are integers on the shared
UTC timeline, so timezone-aware arithmetic is plain integer arithmetic.
-/

/-- A channel message as consumed by the ingestion pipeline. -/
structure Msg where
  id : Int
  text : List Char
  date : Option Int
  badDate : Bool
  imageData : Option (List Char)
deriving DecidableEq

/-- A persisted row of the clock_updates table (model ClockUpdate of
src/app/models.py, whose message_id column carries a unique constraint). -/
structure Record where
  message_id : Int
  content : List Char
  time_value : Option (List Char)
  image_data : Option (List Char)
  created_at : Int
deriving DecidableEq

/-- Record construction of the fetch loops: content is the message text,
time_value comes from the client extractor and created_at falls back to the
current time when the message has no date. -/
def buildRecord (now : Int) (m : Msg) : Record :=
  ⟨m.id, m.text, extract_time_from_message m.text, m.imageData, m.date.getD now⟩

/-- Session state of one ingestion call.  committed rows are visible to every
session; flushed rows were sent to the database inside the open transaction;
pending rows sit in the session only.  The session is configured with
autoflush disabled (src/app/db/session.py), so queries see committed and
flushed rows but never pending ones. -/
structure DBState where
  committed : List Record
  flushed : List Record
  pending : List Record
deriving DecidableEq

/-- Rows a query of this session can see: committed plus flushed. -/
def visibleRecords (db : DBState) : List Record := db.committed ++ db.flushed

/-- The message_id column of a list of rows. -/
def idsOf (rs : List Record) : List Int := rs.map (fun r => r.message_id)

/-- The existence pre-check of the dedup rule: a visible row with this id. -/
def hasId (rs : List Record) (i : Int) : Bool := rs.any (fun r => r.message_id == i)

/-- Whether rows can be inserted one by one into a table with the given ids
without violating the unique constraint on message_id. -/
def insertIdsOk (table : List Int) (rows : List Int) : Bool :=
  match rows with
  | [] => true
  | i :: rest => !table.contains i && insertIdsOk (i :: table) rest

/-- Staging a row in the session (db.add): the row is pending only. -/
def dbAdd (db : DBState) (r : Record) : DBState :=
  ⟨db.committed, db.flushed, db.pending ++ [r]⟩

/-- Sending pending rows to the database (db.flush): raises an integrity
error when the unique constraint is violated, otherwise the rows become
flushed but are still invisible to other sessions. -/
def dbFlush (db : DBState) : Except Unit DBState :=
  if insertIdsOk (idsOf (db.committed ++ db.flushed)) (idsOf db.pending) then
    Except.ok ⟨db.committed, db.flushed ++ db.pending, []⟩
  else Except.error ()

/-- Committing the transaction (db.commit): a final flush, then every row of
the transaction becomes committed and visible to all sessions. -/
def dbCommit (db : DBState) : Except Unit DBState :=
  match dbFlush db with
  | Except.ok db2 => Except.ok ⟨db2.committed ++ db2.flushed, [], []⟩
  | Except.error e => Except.error e

/-- Rolling back the transaction (db.rollback): uncommitted work is lost. -/
def dbRollback (db : DBState) : DBState := ⟨db.committed, [], []⟩

/-- Embedding of TelegramService.get_latest_messages: the whole iteration sits
in one try block, so any error while iterating is logged and the call returns
the empty list; otherwise it returns all iterated messages.  Stream items are
the steps of the underlying client iterator, an error item being a raise. -/
def collectIter : List (Except Unit Msg) → Option (List Msg)
  | [] => some []
  | Except.error _ :: _ => none
  | Except.ok m :: rest => (collectIter rest).map (fun l => m :: l)

/-- The list of messages returned by the bounded retrieval. -/
def get_latest_messages (stream : List (Except Unit Msg)) : List Msg :=
  match collectIter stream with
  | some l => l
  | none => []

/-- Embedding of TelegramService.iter_channel_messages: messages are yielded
in stream order; with a cutoff, iteration breaks at the first message whose
date is older than the cutoff; a message whose date comparison raises is
skipped with a warning and iteration continues. -/
def iter_channel_messages (cutoff : Option Int) : List Msg → List Msg
  | [] => []
  | m :: rest =>
    match cutoff, m.date with
    | some c, some d =>
      if m.badDate then iter_channel_messages cutoff rest
      else if d < c then []
      else m :: iter_channel_messages cutoff rest
    | _, _ => m :: iter_channel_messages cutoff rest

/-- One message step of the bounded fetch loop of
ClockService.fetch_and_store_updates: empty text is skipped, a visible row
with the same message_id is skipped, otherwise a record is staged. -/
def stepStore (now : Int) (acc : DBState × Nat) (m : Msg) : DBState × Nat :=
  if m.text = [] then acc
  else if hasId (visibleRecords acc.1) m.id then acc
  else (dbAdd acc.1 (buildRecord now m), acc.2 + 1)

/-- The try block of the bounded fetch: iterate the messages, then commit;
an integrity error at commit is the error case. -/
def runBoundedBatch (now : Int) (msgs : List Msg) (db : DBState) : Except Unit (Nat × DBState) :=
  match msgs.foldl (stepStore now) (db, 0) with
  | (db2, n) =>
    match dbCommit db2 with
    | Except.ok db3 => Except.ok (n, db3)
    | Except.error e => Except.error e

/-- Embedding of ClockService.fetch_and_store_updates after a successful
connect: the body runs inside try, any exception rolls back and yields 0. -/
def fetch_and_store_updates (now : Int) (stream : List (Except Unit Msg)) (db : DBState) : Nat × DBState :=
  match runBoundedBatch now (get_latest_messages stream) db with
  | Except.ok r => r
  | Except.error _ => (0, dbRollback db)

/-- Effects observed by the caller of one pipeline invocation. -/
structure RunLog where
  disconnected : Bool
  rolledBack : Bool
deriving DecidableEq

/-- Control-flow skeleton of both fetch methods of ClockService: connect runs
before the try block, so a connect failure propagates with no disconnect; any
exception of the body is caught, the transaction is rolled back and 0 is
returned; disconnect runs in the finally block of both outcomes. -/
def pipelineRun (connect : Except Unit Unit) (body : Except Unit (Nat × DBState)) (db : DBState) :
    Except Unit ((Nat × DBState) × RunLog) :=
  match connect with
  | Except.error e => Except.error e
  | Except.ok _ =>
    match body with
    | Except.ok r => Except.ok (r, ⟨true, false⟩)
    | Except.error _ => Except.ok ((0, dbRollback db), ⟨true, true⟩)

/-- HTTP outcome of the manual fetch endpoint of src/app/main.py. -/
inductive ApiResult
  | ok (updates_count : Nat)
  | serverError
deriving DecidableEq

/-- Embedding of the POST fetch endpoint fetch_updates: a propagated pipeline
exception becomes a 500 server error, otherwise the count is returned. -/
def fetch_updates_endpoint (res : Except Unit ((Nat × DBState) × RunLog)) : ApiResult :=
  match res with
  | Except.ok ((n, _), _) => ApiResult.ok n
  | Except.error _ => ApiResult.serverError

/-- Deletion of the first row with the given message_id, as done by the
reload endpoint through query-first-then-delete, followed by a commit. -/
def delete_first_by_id (mid : Int) : List Record → List Record
  | [] => []
  | r :: rest => if r.message_id == mid then rest else r :: delete_first_by_id mid rest

/-- Embedding of the POST reload endpoint reload_message of src/app/main.py:
delete the stored row of the target id and commit, then re-run the bounded
fetch and answer with the count and the target id. -/
def reload_message (now : Int) (mid : Int) (stream : List (Except Unit Msg)) (committed : List Record) :
    (Nat × Int) × List Record :=
  match fetch_and_store_updates now stream ⟨delete_first_by_id mid committed, [], []⟩ with
  | (n, db) => ((n, mid), db.committed)

/-- Cutoff computation of ClockService.fetch_and_store_since_days: a missing
days argument defaults to 30, a non-positive value means no cutoff, otherwise
the cutoff is now minus that many days on the aware UTC timeline. -/
def computeMinDate (now : Int) (days : Option Int) : Option Int :=
  match days with
  | none => some (now - 30 * 86400)
  | some d => if d ≤ 0 then none else some (now - d * 86400)

/-- The try block of the windowed fetch: per-message dedup and staging as in
the bounded fetch, plus a flush after every fiftieth staged insert.  The
returned list records the staged-insert counts at which a flush happened. -/
def runWindowBatch (now : Int) : List Msg → DBState → Nat → List Nat → Except Unit (DBState × Nat × List Nat)
  | [], db, n, log => Except.ok (db, n, log)
  | m :: rest, db, n, log =>
    if m.text = [] then runWindowBatch now rest db n log
    else if hasId (visibleRecords db) m.id then runWindowBatch now rest db n log
    else
      match dbAdd db (buildRecord now m), n + 1 with
      | db2, n2 =>
        if n2 % 50 = 0 then
          match dbFlush db2 with
          | Except.ok db3 => runWindowBatch now rest db3 n2 (log ++ [n2])
          | Except.error e => Except.error e
        else runWindowBatch now rest db2 n2 log

/-- Embedding of ClockService.fetch_and_store_since_days after a successful
connect: iterate the channel messages against the cutoff, stage and flush,
commit at the end; any exception rolls back and yields 0. -/
def fetch_and_store_since_days (now : Int) (days : Option Int) (msgs : List Msg) (db : DBState) :
    Nat × DBState × List Nat :=
  match runWindowBatch now (iter_channel_messages (computeMinDate now days) msgs) db 0 [] with
  | Except.ok (db2, n, log) =>
    match dbCommit db2 with
    | Except.ok db3 => (n, db3, log)
    | Except.error _ => (0, dbRollback db, [])
  | Except.error _ => (0, dbRollback db, [])

/-- The staging condition of both fetch loops: non-empty text and no visible
row with the same message_id. -/
def keepMsg (vis : List Record) (m : Msg) : Bool :=
  !m.text.isEmpty && !hasId vis m.id

/-- The records staged by a fetch loop over the given messages when the
visible rows stay fixed, which holds for the bounded fetch (it never flushes
before its final commit). -/
def stagedRecords (now : Int) (vis : List Record) (msgs : List Msg) : List Record :=
  (msgs.filter (keepMsg vis)).map (buildRecord now)

/-- Start index and length of the leftmost match of the time-like pattern. -/
def firstMatchPos : List Char → Option (Nat × Nat)
  | [] => none
  | c :: t =>
    match matchTimeLike (c :: t) with
    | some tm => some (0, tm.consumed.length)
    | none => (firstMatchPos t).map (fun p => (p.1 + 1, p.2))

/-- Removal of the leftmost time-like match only, following the words of the
claim about the description cleanup. -/
def removeFirstTime (l : List Char) : List Char :=
  match firstMatchPos l with
  | none => l
  | some (i, len) => l.take i ++ l.drop (i + len)

/-- Description cleanup as worded by the claim: remove the first time-like
substring and the clock emoji set, collapse whitespace and trim, fall back on
short results, truncate to 200 characters. -/
def extract_description_claim (text : List Char) : List Char :=
  let t := pyStrip (collapseWs (removeEmoji (removeFirstTime text)))
  if t = [] || t.length < 10 then fallbackDescription else t.take 200

/-- Index-based removal of every leftmost-first non-overlapping time-like
match, the amended reading of the description cleanup, with a fuel bound
instantiated at the text length. -/
def removeTimesGo : Nat → List Char → List Char
  | 0, l => l
  | fuel + 1, l =>
    match firstMatchPos l with
    | none => l
    | some (i, len) => l.take i ++ removeTimesGo fuel (l.drop (i + len))

/-- Removal of every time-like match, by repeated leftmost search. -/
def removeAllTimes (l : List Char) : List Char := removeTimesGo l.length l

/-- Description cleanup as amended: remove every time-like substring and the
clock emoji set, collapse whitespace and trim, fall back on short results,
truncate to 200 characters. -/
def extract_description_amended (text : List Char) : List Char :=
  let t1 := pyStrip (removeAllTimes text)
  let t2 := removeEmoji t1
  let t3 := pyStrip (collapseWs t2)
  if t3 = [] || t3.length < 10 then fallbackDescription else t3.take 200

/-- Bounded retrieval as worded by the claim about error handling: a bad
stream item is skipped and iteration continues with the remaining items. -/
def get_latest_messages_claim_skip (stream : List (Except Unit Msg)) : List Msg :=
  stream.foldr (fun x acc =>
    match x with
    | Except.ok m => m :: acc
    | Except.error _ => acc) []

/-- Whether a stream of iterator steps contains a raising step. -/
def streamHasError (stream : List (Except Unit Msg)) : Bool :=
  stream.any (fun x =>
    match x with
    | Except.error _ => true
    | Except.ok _ => false)

/-!
Theorems.  Each claim of the specification is settled by exactly one theorem
below; shared helper lemmas come first where needed.
-/

/-- C2: the parser time extractor tries the patterns in the fixed order colon
triple, colon pair, dot triple, dot pair; the first pattern that matches
anywhere in the string wins; a three-group match formats as zero-padded
HH:MM:SS and a two-group match as zero-padded HH:MM:00; no range validation
happens, so 25:99 is accepted, and 09.25.30 yields 09:25:30. -/
theorem extract_time_pattern_order_and_format :
    (∀ t tm, searchColonTriple t = some tm →
      extract_time t = some (fmtTriple tm.g1 tm.g2 (tm.g3.getD 0))) ∧
    (∀ t tm, searchColonTriple t = none → searchColonPair t = some tm →
      extract_time t = some (fmtTriple tm.g1 tm.g2 0)) ∧
    (∀ t tm, searchColonTriple t = none → searchColonPair t = none →
      searchDotTriple t = some tm →
      extract_time t = some (fmtTriple tm.g1 tm.g2 (tm.g3.getD 0))) ∧
    (∀ t tm, searchColonTriple t = none → searchColonPair t = none →
      searchDotTriple t = none → searchDotPair t = some tm →
      extract_time t = some (fmtTriple tm.g1 tm.g2 0)) ∧
    (∀ t, searchColonTriple t = none → searchColonPair t = none →
      searchDotTriple t = none → searchDotPair t = none → extract_time t = none) ∧
    extract_time "25:99".data = some "25:99:00".data ∧
    extract_time "09.25.30".data = some "09:25:30".data := by
  refine ⟨?_, ?_, ?_, ?_, ?_, by decide, by decide⟩
  · intro t tm h
    simp [extract_time, h]
  · intro t tm h1 h2
    simp [extract_time, h1, h2]
  · intro t tm h1 h2 h3
    simp [extract_time, h1, h2, h3]
  · intro t tm h1 h2 h3 h4
    simp [extract_time, h1, h2, h3, h4]
  · intro t h1 h2 h3 h4
    simp [extract_time, h1, h2, h3, h4]

/-- C2 witness: the theorem applied at the concrete input 25:99, whose colon
pair match is explicit and whose hypotheses evaluate by decide. -/
theorem extract_time_pattern_order_witness :
    extract_time "25:99".data = some (fmtTriple 25 99 0) :=
  extract_time_pattern_order_and_format.2.1 "25:99".data
    ⟨25, 99, none, "25:99".data, []⟩ (by decide) (by decide)

/-- C10: the Gateway token extractor and the Parser formatter disagree: the
Gateway has no dotted triple pattern and returns the matched substring
verbatim without padding, so on 09.25.30 the two return 09.25 versus
09:25:30, and on 9:05 the Gateway keeps the unpadded text. -/
theorem dual_time_extractors_diverge :
    extract_time_from_message "09.25.30".data = some "09.25".data ∧
    extract_time "09.25.30".data = some "09:25:30".data ∧
    some "09.25".data ≠ some "09:25:30".data ∧
    extract_time_from_message "9:05 за час".data = some "9:05".data ∧
    extract_time "9:05 за час".data = some "09:05:00".data := by
  refine ⟨by decide, by decide, by decide, by decide, by decide⟩

/-- C6: after a successful connect, an exception of the body is swallowed,
the transaction is rolled back, 0 is returned and disconnect still runs; a
successful body also disconnects without rollback; a connect failure
propagates and the fetch endpoint answers with a server error; the endpoint
otherwise reports the count of the bounded fetch. -/
theorem fetch_pipeline_error_handling :
    (∀ db : DBState,
      pipelineRun (Except.ok ()) (Except.error ()) db =
        Except.ok ((0, dbRollback db), ⟨true, true⟩) ∧
      (dbRollback db).committed = db.committed ∧
      fetch_updates_endpoint (pipelineRun (Except.ok ()) (Except.error ()) db) =
        ApiResult.ok 0) ∧
    (∀ (db : DBState) (n : Nat) (db2 : DBState),
      pipelineRun (Except.ok ()) (Except.ok (n, db2)) db =
        Except.ok ((n, db2), ⟨true, false⟩)) ∧
    (∀ (body : Except Unit (Nat × DBState)) (db : DBState),
      pipelineRun (Except.error ()) body db = Except.error () ∧
      fetch_updates_endpoint (pipelineRun (Except.error ()) body db) =
        ApiResult.serverError) ∧
    (∀ now stream db,
      fetch_updates_endpoint
        (pipelineRun (Except.ok ()) (runBoundedBatch now (get_latest_messages stream) db) db) =
      ApiResult.ok (fetch_and_store_updates now stream db).1) := by
  refine ⟨fun db => ⟨rfl, rfl, rfl⟩, fun db n db2 => rfl, fun body db => ⟨rfl, rfl⟩, ?_⟩
  intro now stream db
  unfold fetch_and_store_updates pipelineRun fetch_updates_endpoint
  cases runBoundedBatch now (get_latest_messages stream) db with
  | ok r => rfl
  | error e => rfl

/-- The staged record keeps the message id. -/
theorem buildRecord_message_id (now : Int) (m : Msg) :
    (buildRecord now m).message_id = m.id := rfl

/-- The existence pre-check agrees with membership in the id column. -/
theorem hasId_iff_mem (rs : List Record) (i : Int) :
    hasId rs i = true ↔ i ∈ idsOf rs := by
  unfold hasId idsOf
  rw [List.any_eq_true]
  simp only [beq_iff_eq, List.mem_map]

/-- Unique-constraint check: the insert succeeds exactly when the new ids are
pairwise distinct and disjoint from the table. -/
theorem insertIdsOk_iff (table rows : List Int) :
    insertIdsOk table rows = true ↔ rows.Nodup ∧ ∀ i ∈ rows, i ∉ table := by
  induction rows generalizing table with
  | nil => simp [insertIdsOk]
  | cons i rest ih =>
    simp only [insertIdsOk, Bool.and_eq_true, Bool.not_eq_true', ih, List.nodup_cons,
      List.contains, List.elem_eq_mem, decide_eq_false_iff_not]
    constructor
    · rintro ⟨hmem, hnd, hni⟩
      refine ⟨⟨fun hr => ?_, hnd⟩, ?_⟩
      · exact (hni i hr) (List.mem_cons_self i table)
      · intro j hj
        cases hj with
        | head => exact hmem
        | tail _ hj => exact fun hm => (hni _ hj) (List.mem_cons_of_mem i hm)
    · rintro ⟨⟨hir, hnd⟩, hall⟩
      refine ⟨hall i (List.mem_cons_self i rest), hnd, ?_⟩
      intro j hj hm
      cases List.mem_cons.mp hm with
      | inl h => exact hir (h ▸ hj)
      | inr h => exact (hall j (List.mem_cons_of_mem i hj)) h

/-- The id column distributes over row concatenation. -/
theorem idsOf_append (l1 l2 : List Record) :
    idsOf (l1 ++ l2) = idsOf l1 ++ idsOf l2 := List.map_append _ l1 l2

/-- Ids of the staged records, independent of the clock value. -/
theorem idsOf_stagedRecords (now : Int) (vis : List Record) (msgs : List Msg) :
    idsOf (stagedRecords now vis msgs) = (msgs.filter (keepMsg vis)).map (fun m => m.id) := by
  simp [stagedRecords, idsOf, Function.comp, buildRecord]

/-- Closed form of the bounded fetch loop: the visible rows never change, so
the loop stages exactly the records of the kept messages. -/
theorem foldl_stepStore_eq (now : Int) (msgs : List Msg) (c f p : List Record) (n0 : Nat) :
    msgs.foldl (stepStore now) (⟨c, f, p⟩, n0) =
      (⟨c, f, p ++ stagedRecords now (c ++ f) msgs⟩,
       n0 + (msgs.filter (keepMsg (c ++ f))).length) := by
  induction msgs generalizing p n0 with
  | nil => simp [stagedRecords]
  | cons m rest ih =>
    by_cases hempty : m.text = []
    · have hk : keepMsg (c ++ f) m = false := by
        simp [keepMsg, hempty]
      simp [List.foldl_cons, stepStore, if_pos hempty, ih,
        stagedRecords, List.filter_cons, hk]
    · by_cases hdup : hasId (visibleRecords ⟨c, f, p⟩) m.id = true
      · have hk : keepMsg (c ++ f) m = false := by
          simp only [keepMsg, Bool.and_eq_false_iff, Bool.not_eq_true']
          right
          simpa [visibleRecords] using hdup
        have hvis : hasId (visibleRecords ⟨c, f, p⟩) m.id = true := hdup
        simp [List.foldl_cons, stepStore, if_neg hempty, if_pos hvis, ih,
          stagedRecords, List.filter_cons, hk]
      · have hk : keepMsg (c ++ f) m = true := by
          simp only [keepMsg, Bool.and_eq_true, Bool.not_eq_true']
          constructor
          · simpa [List.isEmpty_iff] using hempty
          · simpa [visibleRecords] using hdup
        have hvis : ¬hasId (visibleRecords ⟨c, f, p⟩) m.id = true := hdup
        simp only [List.foldl_cons, stepStore, if_neg hempty, if_neg hvis, dbAdd, ih]
        refine Prod.ext ?_ ?_
        · simp [stagedRecords, List.filter_cons, hk, List.append_assoc]
        · simp [List.filter_cons, hk]
          omega

/-- The existence pre-check distributes over row concatenation. -/
theorem hasId_append (l1 l2 : List Record) (i : Int) :
    hasId (l1 ++ l2) i = (hasId l1 i || hasId l2 i) := by
  simp [hasId, List.any_append]


/-- Closed form of the bounded fetch on a fresh session: it stages exactly
the records of the messages with non-empty text and unseen id; the commit
succeeds under the unique constraint and publishes them, otherwise the batch
rolls back and nothing is stored. -/
theorem fetch_and_store_updates_eq (now : Int) (stream : List (Except Unit Msg)) (c : List Record) :
    fetch_and_store_updates now stream ⟨c, [], []⟩ =
      if insertIdsOk (idsOf c) (idsOf (stagedRecords now c (get_latest_messages stream))) then
        ((stagedRecords now c (get_latest_messages stream)).length,
         ⟨c ++ stagedRecords now c (get_latest_messages stream), [], []⟩)
      else (0, ⟨c, [], []⟩) := by
  unfold fetch_and_store_updates runBoundedBatch
  rw [foldl_stepStore_eq now (get_latest_messages stream) c [] [] 0]
  unfold dbCommit dbFlush dbRollback stagedRecords
  simp only [List.append_nil, List.nil_append, Nat.zero_add]
  by_cases h : insertIdsOk (idsOf c)
      (idsOf (List.map (buildRecord now)
        (List.filter (keepMsg c) (get_latest_messages stream)))) = true
  · simp [h]
  · simp [h]

/-- C4: the bounded fetch stages a record only for messages with non-empty
text and unseen message_id, and is idempotent: an immediate second run over
the unchanged stream stores 0 new records and leaves the store unchanged. -/
theorem bounded_fetch_idempotent (now1 now2 : Int) (stream : List (Except Unit Msg)) (c : List Record) :
    (fetch_and_store_updates now2 stream
        ⟨(fetch_and_store_updates now1 stream ⟨c, [], []⟩).2.committed, [], []⟩).1 = 0 ∧
    (fetch_and_store_updates now2 stream
        ⟨(fetch_and_store_updates now1 stream ⟨c, [], []⟩).2.committed, [], []⟩).2.committed =
      (fetch_and_store_updates now1 stream ⟨c, [], []⟩).2.committed ∧
    (∀ rec ∈ (fetch_and_store_updates now1 stream ⟨c, [], []⟩).2.committed,
      rec ∈ c ∨ ∃ m, m ∈ get_latest_messages stream ∧ m.text ≠ [] ∧
        hasId c m.id = false ∧ rec = buildRecord now1 m) := by
  rw [fetch_and_store_updates_eq now1]
  by_cases h : insertIdsOk (idsOf c)
      (idsOf (stagedRecords now1 c (get_latest_messages stream))) = true
  · rw [if_pos h]
    have hfil : List.filter
        (keepMsg (c ++ stagedRecords now1 c (get_latest_messages stream)))
        (get_latest_messages stream) = [] := by
      apply List.filter_eq_nil_iff.mpr
      intro m hm
      simp only [keepMsg, Bool.and_eq_true, Bool.not_eq_true', not_and, Bool.not_eq_false]
      intro hne
      rw [hasId_append]
      by_cases hkc : keepMsg c m = true
      · have hbm : buildRecord now1 m ∈ stagedRecords now1 c (get_latest_messages stream) := by
          show buildRecord now1 m ∈
            ((get_latest_messages stream).filter (keepMsg c)).map (buildRecord now1)
          exact List.mem_map_of_mem _ (List.mem_filter.mpr ⟨hm, hkc⟩)
        have hS : hasId (stagedRecords now1 c (get_latest_messages stream)) m.id = true := by
          rw [hasId_iff_mem]
          exact List.mem_map.mpr ⟨buildRecord now1 m, hbm, rfl⟩
        simp [hS]
      · have hc : hasId c m.id = true := by
          simpa [keepMsg, hne] using hkc
        simp [hc]
    have hstaged2 : stagedRecords now2
        (c ++ stagedRecords now1 c (get_latest_messages stream))
        (get_latest_messages stream) = [] := by
      show (List.filter
          (keepMsg (c ++ stagedRecords now1 c (get_latest_messages stream)))
          (get_latest_messages stream)).map (buildRecord now2) = []
      rw [hfil, List.map_nil]
    rw [fetch_and_store_updates_eq now2, hstaged2]
    refine ⟨?_, ?_, ?_⟩
    · simp [idsOf, insertIdsOk]
    · simp [idsOf, insertIdsOk]
    intro rec hrec
    rcases List.mem_append.mp hrec with hcm | hs
    · exact Or.inl hcm
    · have hs2 : rec ∈ ((get_latest_messages stream).filter (keepMsg c)).map (buildRecord now1) := hs
      rcases List.mem_map.mp hs2 with ⟨m, hmf, hbm⟩
      rcases List.mem_filter.mp hmf with ⟨hmm, hkeep⟩
      simp only [keepMsg, Bool.and_eq_true, Bool.not_eq_true'] at hkeep
      refine Or.inr ⟨m, hmm, ?_, hkeep.2, hbm.symm⟩
      intro hnil
      have : m.text.isEmpty = true := by
        rw [hnil]
        rfl
      rw [hkeep.1] at this
      exact Bool.false_ne_true this
  · rw [if_neg h]
    have hids : idsOf (stagedRecords now2 c (get_latest_messages stream)) =
        idsOf (stagedRecords now1 c (get_latest_messages stream)) := by
      rw [idsOf_stagedRecords, idsOf_stagedRecords]
    rw [fetch_and_store_updates_eq now2, hids, if_neg h]
    exact ⟨rfl, rfl, fun rec hrec => Or.inl hrec⟩

/-- C4 witness: a one-message stream on an empty store; the second run stores
zero records, and the theorem names the staging condition of the record. -/
theorem bounded_fetch_idempotent_witness :
    (fetch_and_store_updates 5 [Except.ok ⟨1, "до 10:00".data, none, false, none⟩]
        ⟨(fetch_and_store_updates 3 [Except.ok ⟨1, "до 10:00".data, none, false, none⟩]
            ⟨[], [], []⟩).2.committed, [], []⟩).1 = 0 ∧
    (buildRecord 3 ⟨1, "до 10:00".data, none, false, none⟩ ∈ ([] : List Record) ∨
      ∃ m, m ∈ get_latest_messages [Except.ok ⟨1, "до 10:00".data, none, false, none⟩] ∧
        m.text ≠ [] ∧ hasId [] m.id = false ∧
        buildRecord 3 ⟨1, "до 10:00".data, none, false, none⟩ = buildRecord 3 m) :=
  ⟨(bounded_fetch_idempotent 3 5 [Except.ok ⟨1, "до 10:00".data, none, false, none⟩] []).1,
   (bounded_fetch_idempotent 3 5 [Except.ok ⟨1, "до 10:00".data, none, false, none⟩] []).2.2
     (buildRecord 3 ⟨1, "до 10:00".data, none, false, none⟩) (by decide)⟩

/-- A successful unique-constraint check extends a duplicate-free table. -/
theorem nodup_table_extend (t rows : List Int) (hnd : t.Nodup)
    (hok : insertIdsOk t rows = true) : (t ++ rows).Nodup := by
  rcases (insertIdsOk_iff t rows).mp hok with ⟨hr, hdisj⟩
  rw [List.nodup_append]
  exact ⟨hnd, hr, fun a ha hb => hdisj a hb ha⟩

/-- A successful flush keeps committed rows, moves pending rows to flushed,
and certifies the unique-constraint check. -/
theorem dbFlush_ok_spec (db db2 : DBState) (h : dbFlush db = Except.ok db2) :
    db2.committed = db.committed ∧ db2.flushed = db.flushed ++ db.pending ∧
    db2.pending = [] ∧
    insertIdsOk (idsOf (db.committed ++ db.flushed)) (idsOf db.pending) = true := by
  unfold dbFlush at h
  split at h
  · cases h
    exact ⟨rfl, rfl, rfl, by assumption⟩
  · exact Except.noConfusion h

/-- A successful commit publishes every row of the transaction and certifies
the unique-constraint check of the final flush. -/
theorem dbCommit_ok_spec (db db2 : DBState) (h : dbCommit db = Except.ok db2) :
    db2 = ⟨db.committed ++ db.flushed ++ db.pending, [], []⟩ ∧
    insertIdsOk (idsOf (db.committed ++ db.flushed)) (idsOf db.pending) = true := by
  unfold dbCommit at h
  cases hf : dbFlush db with
  | error e =>
    rw [hf] at h
    exact Except.noConfusion h
  | ok dbf =>
    rw [hf] at h
    rcases dbFlush_ok_spec db dbf hf with ⟨h1, h2, h3, h4⟩
    cases h
    refine ⟨?_, h4⟩
    simp [h1, h2, List.append_assoc]

/-- Commit preserves the uniqueness invariant on ids. -/
theorem dbCommit_ok_nodup (db db2 : DBState)
    (hnd : (idsOf (db.committed ++ db.flushed)).Nodup)
    (h : dbCommit db = Except.ok db2) : (idsOf db2.committed).Nodup := by
  rcases dbCommit_ok_spec db db2 h with ⟨heq, hok⟩
  rw [heq]
  show (idsOf (db.committed ++ db.flushed ++ db.pending)).Nodup
  rw [idsOf_append]
  exact nodup_table_extend _ _ hnd hok

/-- The windowed batch keeps committed rows fixed and preserves the
uniqueness invariant on the rows already sent to the database. -/
theorem runWindowBatch_inv (now : Int) (msgs : List Msg) :
    ∀ db n log db2 n2 log2,
      runWindowBatch now msgs db n log = Except.ok (db2, n2, log2) →
      (idsOf (db.committed ++ db.flushed)).Nodup →
      (idsOf (db2.committed ++ db2.flushed)).Nodup ∧ db2.committed = db.committed := by
  induction msgs with
  | nil =>
    intro db n log db2 n2 log2 h hnd
    unfold runWindowBatch at h
    cases h
    exact ⟨hnd, rfl⟩
  | cons m rest ih =>
    intro db n log db2 n2 log2 h hnd
    by_cases ht : m.text = []
    · simp only [runWindowBatch, if_pos ht] at h
      exact ih db n log db2 n2 log2 h hnd
    · by_cases hh : hasId (visibleRecords db) m.id = true
      · simp only [runWindowBatch, if_neg ht, if_pos hh] at h
        exact ih db n log db2 n2 log2 h hnd
      · simp only [runWindowBatch, if_neg ht, if_neg hh] at h
        by_cases h50 : (n + 1) % 50 = 0
        · rw [if_pos h50] at h
          cases hf : dbFlush (dbAdd db (buildRecord now m)) with
          | error e =>
            rw [hf] at h
            exact Except.noConfusion h
          | ok db3 =>
            rw [hf] at h
            rcases dbFlush_ok_spec _ _ hf with ⟨h1, h2, h3, h4⟩
            have hnd3 : (idsOf (db3.committed ++ db3.flushed)).Nodup := by
              rw [h1, h2]
              show (idsOf (db.committed ++ (db.flushed ++ (db.pending ++ [buildRecord now m])))).Nodup
              rw [← List.append_assoc]
              rw [idsOf_append]
              exact nodup_table_extend _ _ hnd h4
            rcases ih db3 (n + 1) (log ++ [n + 1]) db2 n2 log2 h hnd3 with ⟨ha, hb⟩
            refine ⟨ha, ?_⟩
            rw [hb, h1]
            exact rfl
        · rw [if_neg h50] at h
          exact ih (dbAdd db (buildRecord now m)) (n + 1) log db2 n2 log2 h hnd

/-- The bounded fetch preserves the uniqueness invariant of the store. -/
theorem fetch_preserves_nodup (now : Int) (stream : List (Except Unit Msg)) (c : List Record)
    (hnd : (idsOf c).Nodup) :
    (idsOf (fetch_and_store_updates now stream ⟨c, [], []⟩).2.committed).Nodup := by
  rw [fetch_and_store_updates_eq]
  by_cases h : insertIdsOk (idsOf c)
      (idsOf (stagedRecords now c (get_latest_messages stream))) = true
  · rw [if_pos h]
    show (idsOf (c ++ stagedRecords now c (get_latest_messages stream))).Nodup
    rw [idsOf_append]
    exact nodup_table_extend _ _ hnd h
  · rw [if_neg h]
    exact hnd

/-- Deleting the first row with an id yields a sublist of the store. -/
theorem delete_first_by_id_sublist (mid : Int) (l : List Record) :
    (delete_first_by_id mid l).Sublist l := by
  induction l with
  | nil => exact List.Sublist.refl []
  | cons r rest ih =>
    unfold delete_first_by_id
    by_cases h : r.message_id == mid
    · rw [if_pos h]
      exact List.sublist_cons_self r rest
    · rw [if_neg h]
      exact List.Sublist.cons₂ r ih

/-- Deletion preserves the uniqueness invariant of the store. -/
theorem delete_first_by_id_nodup (mid : Int) (l : List Record)
    (hnd : (idsOf l).Nodup) : (idsOf (delete_first_by_id mid l)).Nodup :=
  List.Nodup.sublist (List.Sublist.map _ (delete_first_by_id_sublist mid l)) hnd

/-- In a duplicate-free store, deleting the row of an id removes the id. -/
theorem delete_first_by_id_not_mem (mid : Int) (l : List Record)
    (hnd : (idsOf l).Nodup) : hasId (delete_first_by_id mid l) mid = false := by
  induction l with
  | nil => rfl
  | cons r rest ih =>
    unfold delete_first_by_id
    rcases List.nodup_cons.mp hnd with ⟨hr, hrest⟩
    by_cases h : r.message_id == mid
    · rw [if_pos h]
      rcases Bool.eq_false_or_eq_true (hasId rest mid) with htrue | hfalse
      · exfalso
        have hmem : mid ∈ idsOf rest := (hasId_iff_mem rest mid).mp htrue
        have heq : r.message_id = mid := beq_iff_eq.mp h
        apply hr
        show r.message_id ∈ List.map (fun r => r.message_id) rest
        rw [heq]
        exact hmem
      · exact hfalse
    · rw [if_neg h]
      have htail := ih hrest
      show (r.message_id == mid || hasId (delete_first_by_id mid rest) mid) = false
      rw [htail]
      simp only [Bool.or_false]
      rcases Bool.eq_false_or_eq_true (r.message_id == mid) with htr | hfa
      · exact absurd htr h
      · exact hfa

/-- C3 counterexample: a single batch with two messages carrying the same
message_id does not result in exactly one stored record; the session never
flushes before commit and its pre-check cannot see pending rows (autoflush is
disabled), so the commit violates the unique constraint could and the whole
batch rolls back, storing zero records for that id. -/
theorem dup_batch_single_record_counterexample :
    ¬ (((fetch_and_store_updates 0
          [Except.ok ⟨7, "до 10:00".data, none, false, none⟩,
           Except.ok ⟨7, "до 11:00".data, none, false, none⟩]
          ⟨[], [], []⟩).2.committed.filter (fun r => r.message_id == 7)).length = 1) := by
  decide

/-- C3 amended: a batch with two messages of one message_id fails its commit
and rolls back, storing zero records; and every operation preserves the
invariant that the store never holds two records with the same message_id. -/
theorem message_id_unique_invariant :
    (∀ (now : Int) (i : Int) (t1 t2 : List Char) (d1 d2 : Option Int) (b1 b2 : Bool)
        (im1 im2 : Option (List Char)) (c : List Record),
      t1 ≠ [] → t2 ≠ [] → hasId c i = false →
      fetch_and_store_updates now
        [Except.ok ⟨i, t1, d1, b1, im1⟩, Except.ok ⟨i, t2, d2, b2, im2⟩]
        ⟨c, [], []⟩ = (0, ⟨c, [], []⟩)) ∧
    (∀ now stream c, (idsOf c).Nodup →
      (idsOf (fetch_and_store_updates now stream ⟨c, [], []⟩).2.committed).Nodup) ∧
    (∀ now days msgs c, (idsOf c).Nodup →
      (idsOf (fetch_and_store_since_days now days msgs ⟨c, [], []⟩).2.1.committed).Nodup) ∧
    (∀ now mid stream c, (idsOf c).Nodup →
      (idsOf (reload_message now mid stream c).2).Nodup) := by
  refine ⟨?_, ?_, ?_, ?_⟩
  · intro now i t1 t2 d1 d2 b1 b2 im1 im2 c h1 h2 h3
    have hmem : i ∉ idsOf c := by
      intro hm
      rw [(hasId_iff_mem c i).mpr hm] at h3
      exact Bool.noConfusion h3
    have hmsgs : get_latest_messages
        [Except.ok ⟨i, t1, d1, b1, im1⟩, Except.ok ⟨i, t2, d2, b2, im2⟩] =
        [⟨i, t1, d1, b1, im1⟩, ⟨i, t2, d2, b2, im2⟩] := rfl
    have hkeep1 : keepMsg c (⟨i, t1, d1, b1, im1⟩ : Msg) = true := by
      simp [keepMsg, List.isEmpty_iff, h1, h3]
    have hkeep2 : keepMsg c (⟨i, t2, d2, b2, im2⟩ : Msg) = true := by
      simp [keepMsg, List.isEmpty_iff, h2, h3]
    have hstaged : stagedRecords now c
        [⟨i, t1, d1, b1, im1⟩, ⟨i, t2, d2, b2, im2⟩] =
        [buildRecord now ⟨i, t1, d1, b1, im1⟩, buildRecord now ⟨i, t2, d2, b2, im2⟩] := by
      show ((List.filter (keepMsg c) [⟨i, t1, d1, b1, im1⟩, ⟨i, t2, d2, b2, im2⟩]).map
        (buildRecord now)) = _
      rw [List.filter_cons_of_pos hkeep1, List.filter_cons_of_pos hkeep2, List.filter_nil]
      rfl
    have hfail : insertIdsOk (idsOf c)
        (idsOf (stagedRecords now c (get_latest_messages
          [Except.ok ⟨i, t1, d1, b1, im1⟩, Except.ok ⟨i, t2, d2, b2, im2⟩]))) = false := by
      rw [hmsgs, hstaged]
      show insertIdsOk (idsOf c) [i, i] = false
      simp [insertIdsOk, List.contains, List.elem_eq_mem, hmem]
    rw [fetch_and_store_updates_eq, hfail]
    simp
  · intro now stream c hnd
    exact fetch_preserves_nodup now stream c hnd
  · intro now days msgs c hnd
    unfold fetch_and_store_since_days
    split
    next db2 n log heq =>
      rcases runWindowBatch_inv now _ ⟨c, [], []⟩ 0 [] db2 n log heq
        (by simpa using hnd) with ⟨hinv, hcm⟩
      split
      next db3 heq2 =>
        show (idsOf db3.committed).Nodup
        exact dbCommit_ok_nodup db2 db3 hinv heq2
      next e heq2 => exact hnd
    next e heq => exact hnd
  · intro now mid stream c hnd
    unfold reload_message
    show (idsOf (fetch_and_store_updates now stream
      ⟨delete_first_by_id mid c, [], []⟩).2.committed).Nodup
    exact fetch_preserves_nodup now stream _ (delete_first_by_id_nodup mid c hnd)

/-- C3 witness: the amended duplicate-batch conjunct applied at a concrete
two-message batch on an empty store, with its hypotheses decided. -/
theorem message_id_unique_invariant_witness :
    fetch_and_store_updates 0
      [Except.ok ⟨7, "до 10:00".data, none, false, none⟩,
       Except.ok ⟨7, "до 11:00".data, none, false, none⟩]
      ⟨[], [], []⟩ = (0, ⟨[], [], []⟩) :=
  message_id_unique_invariant.1 0 7 "до 10:00".data "до 11:00".data none none false false
    none none [] (by decide) (by decide) (by decide)

/-- A bounded fetch that reports zero new records leaves the store as it
found it. -/
theorem fetch_zero_unchanged (now : Int) (stream : List (Except Unit Msg)) (c : List Record)
    (h0 : (fetch_and_store_updates now stream ⟨c, [], []⟩).1 = 0) :
    (fetch_and_store_updates now stream ⟨c, [], []⟩).2.committed = c := by
  rw [fetch_and_store_updates_eq] at h0 ⊢
  by_cases h : insertIdsOk (idsOf c)
      (idsOf (stagedRecords now c (get_latest_messages stream))) = true
  · rw [if_pos h] at h0 ⊢
    have hnil : stagedRecords now c (get_latest_messages stream) = [] :=
      List.length_eq_zero.mp h0
    show c ++ stagedRecords now c (get_latest_messages stream) = c
    rw [hnil, List.append_nil]
  · rw [if_neg h]

/-- C9: reload answers with the target message_id, deleting the stored row of
that id takes effect before the bounded refetch runs, the deletion persists
when the refetch stores zero new records, and a refetched message with the
target id is re-admitted because the pre-check no longer sees the old row. -/
theorem reload_deletes_then_refetches :
    (∀ now mid stream c, (reload_message now mid stream c).1.2 = mid) ∧
    (∀ (mid : Int) (c : List Record), (idsOf c).Nodup →
      hasId (delete_first_by_id mid c) mid = false) ∧
    (∀ now mid stream c,
      (fetch_and_store_updates now stream ⟨delete_first_by_id mid c, [], []⟩).1 = 0 →
      (reload_message now mid stream c).2 = delete_first_by_id mid c) ∧
    (∀ now mid stream c, (idsOf c).Nodup →
      (fetch_and_store_updates now stream ⟨delete_first_by_id mid c, [], []⟩).1 = 0 →
      hasId (reload_message now mid stream c).2 mid = false) ∧
    (∀ now mid stream c m, (idsOf c).Nodup →
      ((get_latest_messages stream).map (fun m2 => m2.id)).Nodup →
      m ∈ get_latest_messages stream → m.id = mid → m.text ≠ [] →
      hasId (reload_message now mid stream c).2 mid = true) := by
  have hproj : ∀ now mid stream c, (reload_message now mid stream c).2 =
      (fetch_and_store_updates now stream ⟨delete_first_by_id mid c, [], []⟩).2.committed := by
    intro now mid stream c
    unfold reload_message
    rfl
  refine ⟨fun now mid stream c => rfl, ?_, ?_, ?_, ?_⟩
  · intro mid c hnd
    exact delete_first_by_id_not_mem mid c hnd
  · intro now mid stream c h0
    rw [hproj]
    exact fetch_zero_unchanged now stream _ h0
  · intro now mid stream c hnd h0
    rw [hproj, fetch_zero_unchanged now stream _ h0]
    exact delete_first_by_id_not_mem mid c hnd
  · intro now mid stream c m hnd hmids hm hid htext
    rw [hproj]
    have hdel : hasId (delete_first_by_id mid c) mid = false :=
      delete_first_by_id_not_mem mid c hnd
    have hkeep : keepMsg (delete_first_by_id mid c) m = true := by
      simp [keepMsg, List.isEmpty_iff, htext, hid, hdel]
    have hok : insertIdsOk (idsOf (delete_first_by_id mid c))
        (idsOf (stagedRecords now (delete_first_by_id mid c) (get_latest_messages stream))) = true := by
      apply (insertIdsOk_iff _ _).mpr
      rw [idsOf_stagedRecords]
      constructor
      · exact List.Nodup.sublist
          (List.Sublist.map _ (List.filter_sublist (get_latest_messages stream))) hmids
      · intro i hi hitable
        rcases List.mem_map.mp hi with ⟨m2, hm2f, hm2id⟩
        rcases List.mem_filter.mp hm2f with ⟨_, hm2keep⟩
        simp only [keepMsg, Bool.and_eq_true, Bool.not_eq_true'] at hm2keep
        rw [← hm2id] at hitable
        rw [(hasId_iff_mem _ _).mpr hitable] at hm2keep
        exact Bool.noConfusion hm2keep.2
    rw [fetch_and_store_updates_eq, if_pos hok]
    show hasId (delete_first_by_id mid c ++
      stagedRecords now (delete_first_by_id mid c) (get_latest_messages stream)) mid = true
    rw [hasId_append]
    have hbm : buildRecord now m ∈
        stagedRecords now (delete_first_by_id mid c) (get_latest_messages stream) := by
      show buildRecord now m ∈
        ((get_latest_messages stream).filter (keepMsg (delete_first_by_id mid c))).map
          (buildRecord now)
      exact List.mem_map_of_mem _ (List.mem_filter.mpr ⟨hm, hkeep⟩)
    have hS : hasId (stagedRecords now (delete_first_by_id mid c) (get_latest_messages stream))
        mid = true := by
      rw [hasId_iff_mem]
      exact List.mem_map.mpr ⟨buildRecord now m, hbm, hid⟩
    rw [hS]
    simp

/-- C9 witness: reloading id 5 from a one-record store with an empty stream
deletes the record, the refetch stores zero, and the id stays absent. -/
theorem reload_deletes_then_refetches_witness :
    hasId (reload_message 0 5 []
      [(⟨5, "до 10:00".data, some "10:00".data, none, 0⟩ : Record)]).2 5 = false :=
  reload_deletes_then_refetches.2.2.2.1 0 5 []
    [(⟨5, "до 10:00".data, some "10:00".data, none, 0⟩ : Record)]
    (by decide) (by decide)

/-- C7 counterexample: during bounded retrieval a single bad item is not
skipped with a warning; the whole retrieval is aborted and returns the empty
list, dropping the good messages around the bad one. -/
theorem bounded_retrieval_abort_counterexample :
    get_latest_messages
      [Except.ok ⟨1, "до 10:00".data, none, false, none⟩, Except.error (),
       Except.ok ⟨2, "до 11:00".data, none, false, none⟩] = [] ∧
    get_latest_messages_claim_skip
      [Except.ok ⟨1, "до 10:00".data, none, false, none⟩, Except.error (),
       Except.ok ⟨2, "до 11:00".data, none, false, none⟩] =
      [⟨1, "до 10:00".data, none, false, none⟩, ⟨2, "до 11:00".data, none, false, none⟩] ∧
    ([] : List Msg) ≠
      [⟨1, "до 10:00".data, none, false, none⟩, ⟨2, "до 11:00".data, none, false, none⟩] := by
  refine ⟨by decide, by decide, by decide⟩

/-- C7 amended: an error during bounded retrieval aborts the whole iteration,
which returns the empty list, so the fetch stores zero updates and leaves the
store unchanged; the skip-with-warning of a single bad message belongs to the
windowed iterator, which drops a message whose date comparison raises and
continues; a connection-level failure propagates out of the pipeline as an
error with zero stored updates. -/
theorem retrieval_error_handling_amended :
    (∀ stream, streamHasError stream = true → get_latest_messages stream = []) ∧
    (∀ now stream c, streamHasError stream = true →
      fetch_and_store_updates now stream ⟨c, [], []⟩ = (0, ⟨c, [], []⟩)) ∧
    (∀ (cutoff : Option Int) (m : Msg) (rest : List Msg) (cv dm : Int),
      m.badDate = true → m.date = some dm → cutoff = some cv →
      iter_channel_messages cutoff (m :: rest) = iter_channel_messages cutoff rest) ∧
    (∀ (body : Except Unit (Nat × DBState)) (db : DBState),
      pipelineRun (Except.error ()) body db = Except.error ()) := by
  have hmain : ∀ stream, streamHasError stream = true → get_latest_messages stream = [] := by
    intro stream h
    have hnone : collectIter stream = none := by
      induction stream with
      | nil => exact absurd h (by decide)
      | cons x rest ih =>
        cases x with
        | error e => rfl
        | ok m =>
          have hrest : streamHasError rest = true := by
            simpa [streamHasError, List.any_cons] using h
          unfold collectIter
          rw [ih hrest]
          rfl
    unfold get_latest_messages
    rw [hnone]
  refine ⟨hmain, ?_, ?_, fun body db => rfl⟩
  · intro now stream c h
    rw [fetch_and_store_updates_eq, hmain stream h]
    have hstaged : stagedRecords now c [] = [] := rfl
    rw [hstaged]
    simp [idsOf, insertIdsOk]
  · intro cutoff m rest cv dm hbad hdate hcut
    rw [hcut]
    simp only [iter_channel_messages]
    rw [hdate]
    simp [hbad]

/-- C7 witness: the amended theorem applied to a concrete stream with one
raising step: the bounded fetch stores zero records on an empty store. -/
theorem retrieval_error_handling_amended_witness :
    fetch_and_store_updates 0
      [Except.ok ⟨1, "до 10:00".data, none, false, none⟩, Except.error ()]
      ⟨[], [], []⟩ = (0, ⟨[], [], []⟩) :=
  retrieval_error_handling_amended.2.1 0
    [Except.ok ⟨1, "до 10:00".data, none, false, none⟩, Except.error ()] [] (by decide)

/-- The windowed batch never changes the committed rows: records only become
visible at the final commit. -/
theorem runWindowBatch_committed (now : Int) (msgs : List Msg) :
    ∀ db n log db2 n2 log2,
      runWindowBatch now msgs db n log = Except.ok (db2, n2, log2) →
      db2.committed = db.committed := by
  induction msgs with
  | nil =>
    intro db n log db2 n2 log2 h
    unfold runWindowBatch at h
    cases h
    rfl
  | cons m rest ih =>
    intro db n log db2 n2 log2 h
    by_cases ht : m.text = []
    · simp only [runWindowBatch, if_pos ht] at h
      exact ih db n log db2 n2 log2 h
    · by_cases hh : hasId (visibleRecords db) m.id = true
      · simp only [runWindowBatch, if_neg ht, if_pos hh] at h
        exact ih db n log db2 n2 log2 h
      · simp only [runWindowBatch, if_neg ht, if_neg hh] at h
        by_cases h50 : (n + 1) % 50 = 0
        · rw [if_pos h50] at h
          cases hf : dbFlush (dbAdd db (buildRecord now m)) with
          | error e =>
            rw [hf] at h
            exact Except.noConfusion h
          | ok db3 =>
            rw [hf] at h
            have h3 := ih db3 (n + 1) (log ++ [n + 1]) db2 n2 log2 h
            rw [h3, (dbFlush_ok_spec _ _ hf).1]
            rfl
        · rw [if_neg h50] at h
          exact ih (dbAdd db (buildRecord now m)) (n + 1) log db2 n2 log2 h

/-- Every entry appended to the flush log is a positive multiple of fifty. -/
theorem runWindowBatch_log (now : Int) (msgs : List Msg) :
    ∀ db n log db2 n2 log2,
      runWindowBatch now msgs db n log = Except.ok (db2, n2, log2) →
      (∀ f ∈ log, f % 50 = 0 ∧ f ≠ 0) →
      (∀ f ∈ log2, f % 50 = 0 ∧ f ≠ 0) := by
  induction msgs with
  | nil =>
    intro db n log db2 n2 log2 h hlog
    unfold runWindowBatch at h
    cases h
    exact hlog
  | cons m rest ih =>
    intro db n log db2 n2 log2 h hlog
    by_cases ht : m.text = []
    · simp only [runWindowBatch, if_pos ht] at h
      exact ih db n log db2 n2 log2 h hlog
    · by_cases hh : hasId (visibleRecords db) m.id = true
      · simp only [runWindowBatch, if_neg ht, if_pos hh] at h
        exact ih db n log db2 n2 log2 h hlog
      · simp only [runWindowBatch, if_neg ht, if_neg hh] at h
        by_cases h50 : (n + 1) % 50 = 0
        · rw [if_pos h50] at h
          cases hf : dbFlush (dbAdd db (buildRecord now m)) with
          | error e =>
            rw [hf] at h
            exact Except.noConfusion h
          | ok db3 =>
            rw [hf] at h
            refine ih db3 (n + 1) (log ++ [n + 1]) db2 n2 log2 h ?_
            intro f hf2
            rcases List.mem_append.mp hf2 with hold | hnew
            · exact hlog f hold
            · rcases List.mem_singleton.mp hnew with rfl
              exact ⟨h50, Nat.succ_ne_zero n⟩
        · rw [if_neg h50] at h
          exact ih (dbAdd db (buildRecord now m)) (n + 1) log db2 n2 log2 h hlog

/-- The number of uncommitted rows grows exactly with the staged count. -/
theorem runWindowBatch_count (now : Int) (msgs : List Msg) :
    ∀ db n log db2 n2 log2,
      runWindowBatch now msgs db n log = Except.ok (db2, n2, log2) →
      db2.flushed.length + db2.pending.length + n =
        db.flushed.length + db.pending.length + n2 := by
  induction msgs with
  | nil =>
    intro db n log db2 n2 log2 h
    unfold runWindowBatch at h
    cases h
    rfl
  | cons m rest ih =>
    intro db n log db2 n2 log2 h
    by_cases ht : m.text = []
    · simp only [runWindowBatch, if_pos ht] at h
      exact ih db n log db2 n2 log2 h
    · by_cases hh : hasId (visibleRecords db) m.id = true
      · simp only [runWindowBatch, if_neg ht, if_pos hh] at h
        exact ih db n log db2 n2 log2 h
      · simp only [runWindowBatch, if_neg ht, if_neg hh] at h
        by_cases h50 : (n + 1) % 50 = 0
        · rw [if_pos h50] at h
          cases hf : dbFlush (dbAdd db (buildRecord now m)) with
          | error e =>
            rw [hf] at h
            exact Except.noConfusion h
          | ok db3 =>
            rw [hf] at h
            have hc := ih db3 (n + 1) (log ++ [n + 1]) db2 n2 log2 h
            rcases dbFlush_ok_spec _ _ hf with ⟨h1, h2, h3, h4⟩
            rw [h2, h3] at hc
            simp only [dbAdd, List.length_append, List.length_nil,
              List.length_singleton] at hc
            omega
        · rw [if_neg h50] at h
          have hc := ih (dbAdd db (buildRecord now m)) (n + 1) log db2 n2 log2 h
          simp only [dbAdd, List.length_append, List.length_singleton] at hc
          omega

/-- C8: the windowed fetch defaults to a 30-day cutoff, uses no cutoff for a
non-positive days value and otherwise now minus days on the aware UTC
timeline; iteration never yields anything after the first message older than
the cutoff; every flush happens at a positive multiple of fifty staged
inserts and leaves the committed rows untouched; and the call returns the
count of the new records that become visible at the single final commit. -/
theorem windowed_fetch_behavior :
    (∀ now : Int, computeMinDate now none = some (now - 30 * 86400)) ∧
    (∀ now d : Int, d ≤ 0 → computeMinDate now (some d) = none) ∧
    (∀ now d : Int, 0 < d → computeMinDate now (some d) = some (now - d * 86400)) ∧
    (∀ (cv : Int) (pre post : List Msg) (m : Msg) (dm : Int),
      m.badDate = false → m.date = some dm → dm < cv →
      iter_channel_messages (some cv) (pre ++ m :: post) =
        iter_channel_messages (some cv) (pre ++ [m])) ∧
    (∀ db db2, dbFlush db = Except.ok db2 → db2.committed = db.committed) ∧
    (∀ now days msgs c f, f ∈ (fetch_and_store_since_days now days msgs ⟨c, [], []⟩).2.2 →
      f % 50 = 0 ∧ f ≠ 0) ∧
    (∀ now days msgs c, ∃ newRecs : List Record,
      (fetch_and_store_since_days now days msgs ⟨c, [], []⟩).2.1.committed = c ++ newRecs ∧
      newRecs.length = (fetch_and_store_since_days now days msgs ⟨c, [], []⟩).1) := by
  refine ⟨fun now => rfl, ?_, ?_, ?_, ?_, ?_, ?_⟩
  · intro now d h
    show (if d ≤ 0 then none else some (now - d * 86400)) = (none : Option Int)
    rw [if_pos h]
  · intro now d h
    show (if d ≤ 0 then none else some (now - d * 86400)) = some (now - d * 86400)
    rw [if_neg (not_le.mpr h)]
  · intro cv pre post m dm hbad hdate hlt
    induction pre with
    | nil =>
      simp only [List.nil_append, iter_channel_messages]
      rw [hdate]
      simp [hbad, hlt]
    | cons a pre ih =>
      simp only [List.cons_append, iter_channel_messages]
      cases ha : a.date with
      | none =>
        show a :: iter_channel_messages (some cv) (pre ++ m :: post) =
          a :: iter_channel_messages (some cv) (pre ++ [m])
        exact congrArg _ ih
      | some da =>
        by_cases hb : a.badDate = true
        · show (if a.badDate = true then iter_channel_messages (some cv) (pre ++ m :: post)
            else if da < cv then [] else
              a :: iter_channel_messages (some cv) (pre ++ m :: post)) = _
          simp only [hb, if_pos]
          rw [ih]
          simp [hb]
        · show (if a.badDate = true then iter_channel_messages (some cv) (pre ++ m :: post)
            else if da < cv then [] else
              a :: iter_channel_messages (some cv) (pre ++ m :: post)) = _
          by_cases hda : da < cv
          · simp [hb, hda]
          · simp only [hb, hda, if_neg, if_false]
            rw [ih]
            simp [hb, hda]
  · intro db db2 h
    exact (dbFlush_ok_spec db db2 h).1
  · intro now days msgs c f hf
    revert hf
    unfold fetch_and_store_since_days
    split
    next db2 n log heq =>
      split
      next db3 heq2 =>
        intro hf
        exact runWindowBatch_log now _ ⟨c, [], []⟩ 0 [] db2 n log heq
          (fun f2 hf2 => absurd hf2 (List.not_mem_nil f2)) f hf
      next e heq2 =>
        intro hf
        exact absurd hf (List.not_mem_nil f)
    next e heq =>
      intro hf
      exact absurd hf (List.not_mem_nil f)
  · intro now days msgs c
    unfold fetch_and_store_since_days
    split
    next db2 n log heq =>
      split
      next db3 heq2 =>
        refine ⟨db2.flushed ++ db2.pending, ?_, ?_⟩
        · rcases dbCommit_ok_spec db2 db3 heq2 with ⟨h3, _⟩
          rw [h3]
          show db2.committed ++ db2.flushed ++ db2.pending = c ++ (db2.flushed ++ db2.pending)
          rw [runWindowBatch_committed now _ ⟨c, [], []⟩ 0 [] db2 n log heq]
          show c ++ db2.flushed ++ db2.pending = c ++ (db2.flushed ++ db2.pending)
          rw [List.append_assoc]
        · have hcount := runWindowBatch_count now _ ⟨c, [], []⟩ 0 [] db2 n log heq
          simp only [List.length_nil, List.length_append] at hcount ⊢
          omega
      next e heq2 =>
        exact ⟨[], by simp [dbRollback], rfl⟩
    next e heq =>
      exact ⟨[], by simp [dbRollback], rfl⟩

/-- C8 witness: the cutoff conjunct applied at a concrete non-positive days
value, where the windowed fetch uses no date boundary. -/
theorem windowed_fetch_behavior_witness :
    computeMinDate 100 (some 0) = none :=
  windowed_fetch_behavior.2.1 100 0 (by decide)

/-- A whitespace character is no digit and no separator of any pattern. -/
theorem pyIsSpace_char_facts (c : Char) (h : pyIsSpace c = true) :
    isDigitCh c = false ∧ sepColon c = false ∧ sepDot c = false ∧
    sepColonOrDot c = false := by
  simp only [pyIsSpace, Bool.or_eq_true, beq_iff_eq] at h
  simp only [isDigitCh, sepColon, sepDot, sepColonOrDot, Bool.and_eq_false_iff,
    Bool.or_eq_false_iff, decide_eq_false_iff_not, beq_eq_false_iff_ne, ne_eq]
  refine ⟨by omega, by omega, by omega, by omega, by omega⟩

/-- Lowercasing keeps whitespace characters unchanged. -/
theorem toLowerPy_space (c : Char) (h : pyIsSpace c = true) : toLowerPy c = c := by
  simp only [pyIsSpace, Bool.or_eq_true, beq_iff_eq] at h
  have b1 : (65 ≤ c.toNat && c.toNat ≤ 57 + 33) = false := by
    simp only [Bool.and_eq_false_iff, decide_eq_false_iff_not]
    omega
  have b2 : (1040 ≤ c.toNat && c.toNat ≤ 1071) = false := by
    simp only [Bool.and_eq_false_iff, decide_eq_false_iff_not]
    omega
  have b3 : (c.toNat == 1025) = false := by
    simp only [beq_eq_false_iff_ne, ne_eq]
    omega
  simp [toLowerPy, b1, b2, b3]

/-- The first alternative map lemma: mapping the candidates first is the same
as composing inside the alternative function. -/
theorem firstSome_map {α β γ : Type} (xs : List α) (f : α → β) (g : β → Option γ) :
    firstSome (xs.map f) g = firstSome xs (fun x => g (f x)) := by
  induction xs with
  | nil => rfl
  | cons a as ih =>
    simp only [List.map_cons, firstSome]
    cases g (f a) with
    | some b => rfl
    | none => exact ih

/-- Congruence for the alternative scan. -/
theorem firstSome_congr {α β : Type} (xs : List α) (f g : α → Option β)
    (h : ∀ x ∈ xs, f x = g x) : firstSome xs f = firstSome xs g := by
  induction xs with
  | nil => rfl
  | cons a as ih =>
    simp only [firstSome]
    rw [h a (List.mem_cons_self a as)]
    cases g a with
    | some b => rfl
    | none => exact ih (fun x hx => h x (List.mem_cons_of_mem a hx))

/-- A mapped alternative scan commutes with the map on the result. -/
theorem firstSome_map_result {α β γ : Type} (xs : List α) (f : α → Option β) (h : β → γ) :
    firstSome xs (fun x => Option.map h (f x)) = Option.map h (firstSome xs f) := by
  induction xs with
  | nil => rfl
  | cons a as ih =>
    simp only [firstSome]
    cases f a with
    | some b => rfl
    | none => exact ih

/-- A successful alternative scan names a successful alternative. -/
theorem firstSome_some {α β : Type} (xs : List α) (f : α → Option β) (b : β)
    (h : firstSome xs f = some b) : ∃ x ∈ xs, f x = some b := by
  induction xs with
  | nil => exact Option.noConfusion h
  | cons a as ih =>
    simp only [firstSome] at h
    cases ha : f a with
    | some b2 =>
      rw [ha] at h
      refine ⟨a, List.mem_cons_self a as, ?_⟩
      rw [ha]
      exact h
    | none =>
      rw [ha] at h
      rcases ih (by exact h) with ⟨x, hx, hfx⟩
      exact ⟨x, List.mem_cons_of_mem a hx, hfx⟩

/-- Appending text after the two-digit group only shifts the remainder. -/
theorem take2Digits_append (r w : List Char) (hw : ∀ x ∈ w, isDigitCh x = false) :
    take2Digits (r ++ w) = Option.map (fun p => (p.1, p.2.1, p.2.2 ++ w)) (take2Digits r) := by
  match r with
  | [] =>
    match w with
    | [] => rfl
    | [x] => rfl
    | x :: y :: w2 =>
      have hx : isDigitCh x = false := hw x (List.mem_cons_self x _)
      simp [take2Digits, hx]
  | [a] =>
    match w with
    | [] => rfl
    | x :: w2 =>
      have hx : isDigitCh x = false := hw x (List.mem_cons_self x _)
      simp [take2Digits, hx]
  | a :: b :: r2 =>
    show take2Digits (a :: b :: (r2 ++ w)) = _
    by_cases hab : isDigitCh a && isDigitCh b = true
    · simp [take2Digits, hab]
    · simp only [Bool.not_eq_true] at hab
      simp [take2Digits, hab]

/-- Appending text after the one-or-two-digit group only shifts remainders. -/
theorem take12Cands_append (l w : List Char) (hw : ∀ x ∈ w, isDigitCh x = false) :
    take12Cands (l ++ w) = (take12Cands l).map (fun p => (p.1, p.2.1, p.2.2 ++ w)) := by
  match l with
  | [] =>
    match w with
    | [] => rfl
    | [x] =>
      have hx : isDigitCh x = false := hw x (List.mem_cons_self x _)
      simp [take12Cands, hx]
    | x :: y :: w2 =>
      have hx : isDigitCh x = false := hw x (List.mem_cons_self x _)
      simp [take12Cands, hx]
  | [a] =>
    match w with
    | [] =>
      cases ha : isDigitCh a <;> simp [take12Cands, ha]
    | x :: w2 =>
      have hx : isDigitCh x = false := hw x (List.mem_cons_self x _)
      show take12Cands (a :: x :: w2) = _
      by_cases ha : isDigitCh a = true
      · simp [take12Cands, ha, hx]
      · simp only [Bool.not_eq_true] at ha
        simp [take12Cands, ha]
  | a :: b :: l2 =>
    show take12Cands (a :: b :: (l2 ++ w)) = _
    by_cases ha : isDigitCh a = true
    · by_cases hb : isDigitCh b = true
      · simp [take12Cands, ha, hb]
      · simp only [Bool.not_eq_true] at hb
        simp [take12Cands, ha, hb]
    · simp only [Bool.not_eq_true] at ha
      simp [take12Cands, ha]

/-- Appending inert text after the pair matcher only shifts the remainder. -/
theorem matchPairFrom_append (sep : Char → Bool) (g : Nat) (cs r w : List Char)
    (hw : ∀ x ∈ w, isDigitCh x = false ∧ sep x = false) :
    matchPairFrom sep (g, cs, r ++ w) =
      Option.map (fun tm => ⟨tm.g1, tm.g2, tm.g3, tm.consumed, tm.rest ++ w⟩)
        (matchPairFrom sep (g, cs, r)) := by
  match r with
  | [] =>
    match w with
    | [] => rfl
    | s :: w2 =>
      have hs : sep s = false := (hw s (List.mem_cons_self s _)).2
      simp [matchPairFrom, hs]
  | s :: r2 =>
    show matchPairFrom sep (g, cs, s :: (r2 ++ w)) = _
    by_cases hs : sep s = true
    · simp only [matchPairFrom, hs, if_pos]
      rw [take2Digits_append r2 w (fun x hx => (hw x hx).1)]
      cases take2Digits r2 with
      | none => rfl
      | some p =>
        rcases p with ⟨g2v, c2, r3⟩
        rfl
    · simp only [Bool.not_eq_true] at hs
      simp [matchPairFrom, hs]

/-- Appending inert text after the third-group extension shifts remainders. -/
theorem extendThree_append (sep : Char → Bool) (g1 g2 : Nat) (g3 : Option Nat)
    (cs r w : List Char)
    (hw : ∀ x ∈ w, isDigitCh x = false ∧ sep x = false) :
    extendThree sep ⟨g1, g2, g3, cs, r ++ w⟩ =
      Option.map (fun tm2 => ⟨tm2.g1, tm2.g2, tm2.g3, tm2.consumed, tm2.rest ++ w⟩)
        (extendThree sep ⟨g1, g2, g3, cs, r⟩) := by
  match r with
  | [] =>
    match w with
    | [] => rfl
    | s :: w2 =>
      have hs : sep s = false := (hw s (List.mem_cons_self s _)).2
      simp [extendThree, hs]
  | s :: r2 =>
    show extendThree sep ⟨g1, g2, g3, cs, s :: (r2 ++ w)⟩ = _
    by_cases hs : sep s = true
    · simp only [extendThree, hs, if_pos]
      rw [take2Digits_append r2 w (fun x hx => (hw x hx).1)]
      cases take2Digits r2 with
      | none => rfl
      | some p =>
        rcases p with ⟨g3v, c3, r4⟩
        rfl
    · simp only [Bool.not_eq_true] at hs
      simp [extendThree, hs]

/-- Appending text made of non-digit non-separator characters to the input
shifts the remainder of a match and changes nothing else. -/
theorem matchTimeAt_append (sep : Char → Bool) (mode : TMode) (l w : List Char)
    (hw : ∀ x ∈ w, isDigitCh x = false ∧ sep x = false) :
    matchTimeAt sep mode (l ++ w) =
      Option.map (fun tm => ⟨tm.g1, tm.g2, tm.g3, tm.consumed, tm.rest ++ w⟩)
        (matchTimeAt sep mode l) := by
  unfold matchTimeAt
  rw [take12Cands_append l w (fun x hx => (hw x hx).1)]
  rw [firstSome_map]
  rw [← firstSome_map_result]
  apply firstSome_congr
  intro cand hcand
  rcases cand with ⟨g, cs, r⟩
  rw [matchPairFrom_append sep g cs r w hw]
  cases hp : matchPairFrom sep (g, cs, r) with
  | none => rfl
  | some tm =>
    simp only [Option.map_some']
    cases mode with
    | two => rfl
    | three =>
      exact extendThree_append sep tm.g1 tm.g2 tm.g3 tm.consumed tm.rest w hw
    | optThree =>
      rw [show (⟨tm.g1, tm.g2, tm.g3, tm.consumed, tm.rest ++ w⟩ : TimeMatch) =
        ⟨tm.g1, tm.g2, tm.g3, tm.consumed, tm.rest ++ w⟩ from rfl,
        extendThree_append sep tm.g1 tm.g2 tm.g3 tm.consumed tm.rest w hw]
      cases extendThree sep ⟨tm.g1, tm.g2, tm.g3, tm.consumed, tm.rest⟩ with
      | none => rfl
      | some tm3 => rfl

/-- The matchers never match the empty text. -/
theorem matchTimeAt_nil (sep : Char → Bool) (mode : TMode) :
    matchTimeAt sep mode [] = none := rfl

/-- The matchers never match at a non-digit character. -/
theorem matchTimeAt_head_not_digit (sep : Char → Bool) (mode : TMode) (c : Char)
    (t : List Char) (h : isDigitCh c = false) :
    matchTimeAt sep mode (c :: t) = none := by
  match t with
  | [] => simp [matchTimeAt, take12Cands, h, firstSome]
  | b :: t2 => simp [matchTimeAt, take12Cands, h, firstSome]

/-- Search fails on a text of non-digit characters. -/
theorem searchFrom_none_all (sep : Char → Bool) (mode : TMode) (w : List Char)
    (hw : ∀ x ∈ w, isDigitCh x = false) :
    searchFrom (matchTimeAt sep mode) w = none := by
  induction w with
  | nil => rfl
  | cons x w2 ih =>
    simp only [searchFrom]
    rw [matchTimeAt_head_not_digit sep mode x w2 (hw x (List.mem_cons_self x _))]
    exact ih (fun y hy => hw y (List.mem_cons_of_mem x hy))

/-- Leading non-digit characters do not change the search result. -/
theorem searchFrom_prepend (sep : Char → Bool) (mode : TMode) (w l : List Char)
    (hw : ∀ x ∈ w, isDigitCh x = false) :
    searchFrom (matchTimeAt sep mode) (w ++ l) = searchFrom (matchTimeAt sep mode) l := by
  induction w with
  | nil => rfl
  | cons x w2 ih =>
    show searchFrom (matchTimeAt sep mode) (x :: (w2 ++ l)) = _
    simp only [searchFrom]
    rw [matchTimeAt_head_not_digit sep mode x (w2 ++ l) (hw x (List.mem_cons_self x _))]
    exact ih (fun y hy => hw y (List.mem_cons_of_mem x hy))

/-- Trailing inert characters shift the remainder of the search result and
change nothing else. -/
theorem searchFrom_append (sep : Char → Bool) (mode : TMode) (l w : List Char)
    (hw : ∀ x ∈ w, isDigitCh x = false ∧ sep x = false) :
    searchFrom (matchTimeAt sep mode) (l ++ w) =
      Option.map (fun tm => ⟨tm.g1, tm.g2, tm.g3, tm.consumed, tm.rest ++ w⟩)
        (searchFrom (matchTimeAt sep mode) l) := by
  induction l with
  | nil =>
    show searchFrom (matchTimeAt sep mode) w = _
    rw [searchFrom_none_all sep mode w (fun x hx => (hw x hx).1)]
    rfl
  | cons c t ih =>
    show searchFrom (matchTimeAt sep mode) (c :: (t ++ w)) = _
    simp only [searchFrom]
    rw [show (c :: (t ++ w)) = (c :: t) ++ w from rfl,
      matchTimeAt_append sep mode (c :: t) w hw]
    cases matchTimeAt sep mode (c :: t) with
    | some tm => rfl
    | none =>
      simp only [Option.map_none']
      exact ih

/-- Every text splits as leading whitespace, its stripped core, trailing
whitespace. -/
theorem pyStrip_decomp (t : List Char) :
    ∃ w1 w2 : List Char, (∀ x ∈ w1, pyIsSpace x = true) ∧
      (∀ x ∈ w2, pyIsSpace x = true) ∧ t = w1 ++ pyStrip t ++ w2 := by
  refine ⟨t.takeWhile pyIsSpace, ((dropLead t).reverse.takeWhile pyIsSpace).reverse,
    ?_, ?_, ?_⟩
  · intro x hx
    exact List.mem_takeWhile_imp hx
  · intro x hx
    exact List.mem_takeWhile_imp (List.mem_reverse.mp hx)
  · have h1 : t = t.takeWhile pyIsSpace ++ dropLead t :=
      (List.takeWhile_append_dropWhile pyIsSpace t).symm
    have h2 : dropLead t =
        pyStrip t ++ ((dropLead t).reverse.takeWhile pyIsSpace).reverse := by
      have h3 : (dropLead t).reverse =
          (dropLead t).reverse.takeWhile pyIsSpace ++
            (dropLead t).reverse.dropWhile pyIsSpace :=
        (List.takeWhile_append_dropWhile pyIsSpace (dropLead t).reverse).symm
      have h4 := congrArg List.reverse h3
      rw [List.reverse_reverse, List.reverse_append] at h4
      exact h4
    rw [List.append_assoc, ← h2, ← h1]

/-- The empty needle matches at the head of any text. -/
theorem leadsWith_nil_needle (l : List Char) : leadsWith l [] = true := by
  cases l with
  | nil => rfl
  | cons a l2 => rfl

/-- Matching the needle at the head ignores appended whitespace when the
needle has no whitespace characters. -/
theorem leadsWith_append_ws (l w k : List Char)
    (hw : ∀ x ∈ w, pyIsSpace x = true) (hk : ∀ x ∈ k, pyIsSpace x = false) :
    leadsWith (l ++ w) k = leadsWith l k := by
  induction k generalizing l with
  | nil =>
    rw [leadsWith_nil_needle, leadsWith_nil_needle]
  | cons k0 ks ih =>
    cases l with
    | nil =>
      show leadsWith w (k0 :: ks) = false
      cases w with
      | nil => rfl
      | cons x w2 =>
        have hx : pyIsSpace x = true := hw x (List.mem_cons_self x _)
        have hk0 : pyIsSpace k0 = false := hk k0 (List.mem_cons_self k0 _)
        have hne : (x == k0) = false := by
          rw [beq_eq_false_iff_ne]
          intro he
          rw [he, hk0] at hx
          exact Bool.noConfusion hx
        simp [leadsWith, hne]
    | cons a l2 =>
      show (a == k0 && leadsWith (l2 ++ w) (ks : List Char)) = (a == k0 && leadsWith l2 ks)
      rw [ih l2 (fun x hx => hk x (List.mem_cons_of_mem k0 hx))]

/-- Substring containment ignores appended whitespace for a non-empty needle
without whitespace characters. -/
theorem containsSub_append_ws (l w k : List Char)
    (hw : ∀ x ∈ w, pyIsSpace x = true) (hk : ∀ x ∈ k, pyIsSpace x = false)
    (hne : k ≠ []) : containsSub (l ++ w) k = containsSub l k := by
  induction l with
  | nil =>
    show containsSub w k = containsSub [] k
    have hkE : k.isEmpty = false := by
      cases k with
      | nil => exact absurd rfl hne
      | cons k0 ks => rfl
    induction w with
    | nil => rfl
    | cons x w2 ihw =>
      show (leadsWith (x :: w2) k || containsSub w2 k) = _
      rw [ihw (fun y hy => hw y (List.mem_cons_of_mem x hy))]
      cases k with
      | nil => exact absurd rfl hne
      | cons k0 ks =>
        have hx : pyIsSpace x = true := hw x (List.mem_cons_self x _)
        have hk0 : pyIsSpace k0 = false := hk k0 (List.mem_cons_self k0 _)
        have hneq : (x == k0) = false := by
          rw [beq_eq_false_iff_ne]
          intro he
          rw [he, hk0] at hx
          exact Bool.noConfusion hx
        simp [leadsWith, hneq, containsSub, hkE]
  | cons a l2 ih =>
    show (leadsWith ((a :: l2) ++ w) k || containsSub (l2 ++ w) k) = _
    rw [leadsWith_append_ws (a :: l2) w k hw hk, ih]
    rfl

/-- Substring containment ignores leading whitespace for a needle without
whitespace characters. -/
theorem containsSub_prepend_ws (w l k : List Char)
    (hw : ∀ x ∈ w, pyIsSpace x = true) (hk : ∀ x ∈ k, pyIsSpace x = false)
    (hne : k ≠ []) : containsSub (w ++ l) k = containsSub l k := by
  induction w with
  | nil => rfl
  | cons x w2 ih =>
    show (leadsWith (x :: (w2 ++ l)) k || containsSub (w2 ++ l) k) = _
    rw [ih (fun y hy => hw y (List.mem_cons_of_mem x hy))]
    cases k with
    | nil => exact absurd rfl hne
    | cons k0 ks =>
      have hx : pyIsSpace x = true := hw x (List.mem_cons_self x _)
      have hk0 : pyIsSpace k0 = false := hk k0 (List.mem_cons_self k0 _)
      have hneq : (x == k0) = false := by
        rw [beq_eq_false_iff_ne]
        intro he
        rw [he, hk0] at hx
        exact Bool.noConfusion hx
      simp [leadsWith, hneq]

/-- Congruence for the any combinator over a fixed keyword list. -/
theorem list_any_congr {α : Type} (ks : List α) (f g : α → Bool)
    (h : ∀ k ∈ ks, f k = g k) : ks.any f = ks.any g := by
  induction ks with
  | nil => rfl
  | cons k ks2 ih =>
    simp only [List.any_cons]
    rw [h k (List.mem_cons_self k ks2), ih (fun x hx => h x (List.mem_cons_of_mem k hx))]

/-- Every parser keyword is non-empty and free of whitespace characters. -/
theorem clockKeywords_facts :
    ∀ k ∈ clockKeywords, k ≠ [] ∧ ∀ x ∈ k, pyIsSpace x = false := by
  decide

/-- The keyword gate is insensitive to stripping the text first: keywords
contain no whitespace, and lowercasing keeps whitespace whitespace. -/
theorem contains_clock_keywords_strip (t : List Char) :
    contains_clock_keywords (pyLower (pyStrip t)) =
      contains_clock_keywords (pyLower t) := by
  rcases pyStrip_decomp t with ⟨w1, w2, hw1, hw2, ht⟩
  conv_rhs => rw [ht]
  unfold contains_clock_keywords
  apply list_any_congr
  intro k hk
  rcases clockKeywords_facts k hk with ⟨hkne, hknws⟩
  have hlw1 : ∀ x ∈ pyLower w1, pyIsSpace x = true := by
    intro x hx
    rcases List.mem_map.mp hx with ⟨y, hy, hxy⟩
    rw [← hxy, toLowerPy_space y (hw1 y hy)]
    exact hw1 y hy
  have hlw2 : ∀ x ∈ pyLower w2, pyIsSpace x = true := by
    intro x hx
    rcases List.mem_map.mp hx with ⟨y, hy, hxy⟩
    rw [← hxy, toLowerPy_space y (hw2 y hy)]
    exact hw2 y hy
  rw [show pyLower (w1 ++ pyStrip t ++ w2) =
      pyLower w1 ++ (pyLower (pyStrip t) ++ pyLower w2) from by
    simp [pyLower, List.map_append]]
  rw [containsSub_prepend_ws (pyLower w1) _ k hlw1 hknws hkne]
  rw [containsSub_append_ws (pyLower (pyStrip t)) (pyLower w2) k hlw2 hknws hkne]

/-- The extractor succeeds exactly when one of its four searches succeeds. -/
theorem extract_time_isSome_eq (x : List Char) :
    (extract_time x).isSome =
      ((searchColonTriple x).isSome || (searchColonPair x).isSome ||
       (searchDotTriple x).isSome || (searchDotPair x).isSome) := by
  unfold extract_time
  cases searchColonTriple x <;> cases searchColonPair x <;>
    cases searchDotTriple x <;> cases searchDotPair x <;> rfl

/-- Stripping whitespace off both ends does not change whether one pattern
search succeeds, because whitespace is never part of a match. -/
theorem searchFrom_strip_isSome (sep : Char → Bool) (mode : TMode)
    (hsep : ∀ c, pyIsSpace c = true → sep c = false) (t : List Char) :
    (searchFrom (matchTimeAt sep mode) (pyStrip t)).isSome =
      (searchFrom (matchTimeAt sep mode) t).isSome := by
  rcases pyStrip_decomp t with ⟨w1, w2, hw1, hw2, ht⟩
  conv_rhs => rw [ht]
  rw [List.append_assoc]
  rw [searchFrom_prepend sep mode w1 (pyStrip t ++ w2)
    (fun x hx => (pyIsSpace_char_facts x (hw1 x hx)).1)]
  rw [searchFrom_append sep mode (pyStrip t) w2
    (fun x hx => ⟨(pyIsSpace_char_facts x (hw2 x hx)).1, hsep x (hw2 x hx)⟩)]
  cases searchFrom (matchTimeAt sep mode) (pyStrip t) with
  | none => rfl
  | some tm => rfl

/-- Time extraction succeeds on the stripped text exactly when it succeeds on
the original text. -/
theorem extract_time_isSome_strip (t : List Char) :
    (extract_time (pyStrip t)).isSome = (extract_time t).isSome := by
  rw [extract_time_isSome_eq, extract_time_isSome_eq]
  unfold searchColonTriple searchColonPair searchDotTriple searchDotPair
  rw [searchFrom_strip_isSome sepColon TMode.three
      (fun c hc => (pyIsSpace_char_facts c hc).2.1) t,
    searchFrom_strip_isSome sepColon TMode.two
      (fun c hc => (pyIsSpace_char_facts c hc).2.1) t,
    searchFrom_strip_isSome sepDot TMode.three
      (fun c hc => (pyIsSpace_char_facts c hc).2.2.1) t,
    searchFrom_strip_isSome sepDot TMode.two
      (fun c hc => (pyIsSpace_char_facts c hc).2.2.1) t]

/-- The value of a digit character is at most nine. -/
theorem digitVal_le (c : Char) (h : isDigitCh c = true) : digitVal c ≤ 9 := by
  simp only [isDigitCh, Bool.and_eq_true, decide_eq_true_eq] at h
  unfold digitVal
  omega

/-- A two-digit group is bounded by 99. -/
theorem take2Digits_bound (l : List Char) (g : Nat) (cs r : List Char)
    (h : take2Digits l = some (g, cs, r)) : g ≤ 99 := by
  match l with
  | [] => exact Option.noConfusion h
  | [a] => exact Option.noConfusion h
  | a :: b :: l2 =>
    simp only [take2Digits] at h
    by_cases hab : (isDigitCh a && isDigitCh b) = true
    · rw [if_pos hab] at h
      rcases Bool.and_eq_true_iff.mp hab with ⟨ha, hb⟩
      have hva := digitVal_le a ha
      have hvb := digitVal_le b hb
      injection h with h2
      injection h2 with h3 h4
      omega
    · rw [if_neg hab] at h
      exact Option.noConfusion h

/-- A one-or-two-digit group candidate is bounded by 99. -/
theorem take12Cands_bound (l : List Char) :
    ∀ cand ∈ take12Cands l, cand.1 ≤ 99 := by
  match l with
  | [] => intro cand hc; exact absurd hc (List.not_mem_nil cand)
  | [a] =>
    intro cand hc
    simp only [take12Cands] at hc
    by_cases ha : isDigitCh a = true
    · rw [if_pos ha] at hc
      rcases List.mem_singleton.mp hc with rfl
      have := digitVal_le a ha
      simpa using by omega
    · rw [if_neg ha] at hc
      exact absurd hc (List.not_mem_nil cand)
  | a :: b :: l2 =>
    intro cand hc
    simp only [take12Cands] at hc
    by_cases ha : isDigitCh a = true
    · rw [if_pos ha] at hc
      by_cases hb : isDigitCh b = true
      · rw [if_pos hb] at hc
        have hva := digitVal_le a ha
        have hvb := digitVal_le b hb
        rcases List.mem_cons.mp hc with rfl | hc2
        · show 10 * digitVal a + digitVal b ≤ 99
          omega
        · rcases List.mem_singleton.mp hc2 with rfl
          show digitVal a ≤ 99
          omega
      · rw [if_neg hb] at hc
        rcases List.mem_singleton.mp hc with rfl
        have hva := digitVal_le a ha
        show digitVal a ≤ 99
        omega
    · rw [if_neg ha] at hc
      exact absurd hc (List.not_mem_nil cand)

/-- The pair matcher passes on the first-group bound and bounds the second
group, leaving no third group. -/
theorem matchPairFrom_bound (sep : Char → Bool) (g : Nat) (cs r : List Char)
    (tm : TimeMatch) (hg : g ≤ 99) (h : matchPairFrom sep (g, cs, r) = some tm) :
    tm.g1 ≤ 99 ∧ tm.g2 ≤ 99 ∧ tm.g3 = none := by
  match r with
  | [] => exact Option.noConfusion h
  | s :: r2 =>
    simp only [matchPairFrom] at h
    by_cases hs : sep s = true
    · rw [if_pos hs] at h
      cases h2 : take2Digits r2 with
      | none =>
        rw [h2] at h
        exact Option.noConfusion h
      | some p =>
        rcases p with ⟨g2, c2, r3⟩
        rw [h2] at h
        injection h with h3
        rw [← h3]
        exact ⟨hg, take2Digits_bound r2 g2 c2 r3 h2, rfl⟩
    · rw [if_neg hs] at h
      exact Option.noConfusion h

/-- The third-group extension keeps the bounds and bounds the third group. -/
theorem extendThree_bound (sep : Char → Bool) (g1v g2v : Nat) (g3v : Option Nat)
    (cs r : List Char) (tm3 : TimeMatch) (h1 : g1v ≤ 99) (h2 : g2v ≤ 99)
    (h : extendThree sep ⟨g1v, g2v, g3v, cs, r⟩ = some tm3) :
    tm3.g1 ≤ 99 ∧ tm3.g2 ≤ 99 ∧ ∀ v, tm3.g3 = some v → v ≤ 99 := by
  match r with
  | [] => exact Option.noConfusion h
  | s :: r2 =>
    simp only [extendThree] at h
    by_cases hs : sep s = true
    · rw [if_pos hs] at h
      cases h3 : take2Digits r2 with
      | none =>
        rw [h3] at h
        exact Option.noConfusion h
      | some p =>
        rcases p with ⟨g3, c3, r4⟩
        rw [h3] at h
        injection h with h4
        rw [← h4]
        refine ⟨h1, h2, ?_⟩
        intro v hv
        injection hv with hv2
        rw [← hv2]
        exact take2Digits_bound r2 g3 c3 r4 h3
    · rw [if_neg hs] at h
      exact Option.noConfusion h

/-- Every successful match carries group values bounded by 99. -/
theorem matchTimeAt_bounds (sep : Char → Bool) (mode : TMode) (l : List Char)
    (tm : TimeMatch) (h : matchTimeAt sep mode l = some tm) :
    tm.g1 ≤ 99 ∧ tm.g2 ≤ 99 ∧ ∀ v, tm.g3 = some v → v ≤ 99 := by
  unfold matchTimeAt at h
  rcases firstSome_some _ _ _ h with ⟨cand, hcand, hbody⟩
  rcases cand with ⟨g, cs, r⟩
  have hg : g ≤ 99 := take12Cands_bound l (g, cs, r) hcand
  cases hp : matchPairFrom sep (g, cs, r) with
  | none =>
    rw [hp] at hbody
    exact Option.noConfusion hbody
  | some tm0 =>
    rw [hp] at hbody
    rcases matchPairFrom_bound sep g cs r tm0 hg hp with ⟨hb1, hb2, hb3⟩
    cases mode with
    | two =>
      have hb : some tm0 = some tm := hbody
      injection hb with hb2v
      rw [← hb2v]
      refine ⟨hb1, hb2, ?_⟩
      intro v hv
      rw [hb3] at hv
      exact Option.noConfusion hv
    | three =>
      have hb : extendThree sep tm0 = some tm := hbody
      exact extendThree_bound sep tm0.g1 tm0.g2 tm0.g3 tm0.consumed tm0.rest tm hb1 hb2 hb
    | optThree =>
      have hb : (match extendThree sep tm0 with
          | some tm3 => some tm3
          | none => some tm0) = some tm := hbody
      cases he : extendThree sep tm0 with
      | some tm3 =>
        rw [he] at hb
        injection hb with hb2v
        rw [← hb2v]
        exact extendThree_bound sep tm0.g1 tm0.g2 tm0.g3 tm0.consumed tm0.rest tm3 hb1 hb2 he
      | none =>
        rw [he] at hb
        injection hb with hb2v
        rw [← hb2v]
        refine ⟨hb1, hb2, ?_⟩
        intro v hv
        rw [hb3] at hv
        exact Option.noConfusion hv

/-- A successful search is a successful match at some position. -/
theorem searchFrom_some (m : List Char → Option TimeMatch) (l : List Char)
    (tm : TimeMatch) (h : searchFrom m l = some tm) : ∃ l2, m l2 = some tm := by
  induction l with
  | nil => exact ⟨[], h⟩
  | cons c t ih =>
    simp only [searchFrom] at h
    cases hm : m (c :: t) with
    | some r =>
      rw [hm] at h
      exact ⟨c :: t, by rw [hm]; exact h⟩
    | none =>
      rw [hm] at h
      exact ih h

/-- Digit characters of small values are digits. -/
theorem digChar_isDigit (x : Nat) (h : x ≤ 9) : isDigitCh (digChar x) = true := by
  interval_cases x <;> decide

/-- The formatted triple of bounded group values matches HH:MM:SS with
zero-padded two-digit fields. -/
theorem isHHMMSS_fmtTriple (a b c : Nat) (ha : a ≤ 99) (hb : b ≤ 99) (hc : c ≤ 99) :
    isHHMMSS (fmtTriple a b c) = true := by
  have h1 : isDigitCh (digChar (a / 10)) = true := digChar_isDigit _ (by omega)
  have h2 : isDigitCh (digChar (a % 10)) = true := digChar_isDigit _ (by omega)
  have h3 : isDigitCh (digChar (b / 10)) = true := digChar_isDigit _ (by omega)
  have h4 : isDigitCh (digChar (b % 10)) = true := digChar_isDigit _ (by omega)
  have h5 : isDigitCh (digChar (c / 10)) = true := digChar_isDigit _ (by omega)
  have h6 : isDigitCh (digChar (c % 10)) = true := digChar_isDigit _ (by omega)
  show isHHMMSS [digChar (a / 10), digChar (a % 10), ':', digChar (b / 10),
    digChar (b % 10), ':', digChar (c / 10), digChar (c % 10)] = true
  simp [isHHMMSS, h1, h2, h3, h4, h5, h6, sepColon]

/-- Whatever the extractor returns matches HH:MM:SS with two-digit fields. -/
theorem extract_time_format (x s : List Char) (h : extract_time x = some s) :
    isHHMMSS s = true := by
  have hfmt : ∀ (sep : Char → Bool) (mode : TMode) (tm : TimeMatch),
      searchFrom (matchTimeAt sep mode) x = some tm →
      isHHMMSS (fmtTriple tm.g1 tm.g2 (tm.g3.getD 0)) = true := by
    intro sep mode tm hs
    rcases searchFrom_some _ _ _ hs with ⟨l2, hm⟩
    rcases matchTimeAt_bounds sep mode l2 tm hm with ⟨hb1, hb2, hb3⟩
    have hg3 : tm.g3.getD 0 ≤ 99 := by
      cases hg : tm.g3 with
      | none => simp
      | some v =>
        simpa using hb3 v hg
    exact isHHMMSS_fmtTriple _ _ _ hb1 hb2 hg3
  unfold extract_time at h
  cases h1 : searchColonTriple x with
  | some tm =>
    rw [h1] at h
    injection h with h2
    rw [← h2]
    exact hfmt sepColon TMode.three tm h1
  | none =>
    rw [h1] at h
    cases h2 : searchColonPair x with
    | some tm =>
      rw [h2] at h
      injection h with h3
      rw [← h3]
      rcases searchFrom_some (matchTimeAt sepColon TMode.two) x tm h2 with ⟨l2, hm⟩
      rcases matchTimeAt_bounds sepColon TMode.two l2 tm hm with ⟨hb1, hb2, _⟩
      exact isHHMMSS_fmtTriple _ _ _ hb1 hb2 (by omega)
    | none =>
      rw [h2] at h
      cases h3 : searchDotTriple x with
      | some tm =>
        rw [h3] at h
        injection h with h4
        rw [← h4]
        exact hfmt sepDot TMode.three tm h3
      | none =>
        rw [h3] at h
        cases h4 : searchDotPair x with
        | some tm =>
          rw [h4] at h
          injection h with h5
          rw [← h5]
          rcases searchFrom_some (matchTimeAt sepDot TMode.two) x tm h4 with ⟨l2, hm⟩
          rcases matchTimeAt_bounds sepDot TMode.two l2 tm hm with ⟨hb1, hb2, _⟩
          exact isHHMMSS_fmtTriple _ _ _ hb1 hb2 (by omega)
        | none =>
          rw [h4] at h
          exact Option.noConfusion h

/-- C1: parse_message returns a result exactly when the text is non-empty and
not whitespace-only, one clock keyword occurs case-insensitively in it, and
one supported time pattern occurs in it; the returned time always matches
HH:MM:SS with zero-padded two-digit fields. -/
theorem parse_message_nonempty_iff (text : List Char) :
    ((parse_message text).isSome = true ↔
      (pyStrip text ≠ [] ∧ contains_clock_keywords (pyLower text) = true ∧
       (extract_time text).isSome = true)) ∧
    (∀ d, parse_message text = some d → isHHMMSS d.time = true) := by
  by_cases htext : text = []
  · subst htext
    constructor
    · constructor
      · intro h
        simp [parse_message] at h
      · rintro ⟨h1, _, _⟩
        exact absurd rfl h1
    · intro d hd
      simp [parse_message] at hd
  · have hkinv := contains_clock_keywords_strip text
    have htinv := extract_time_isSome_strip text
    have hparse : parse_message text =
        (if contains_clock_keywords (pyLower (pyStrip text)) then
          match extract_time (pyStrip text) with
          | some time =>
            some ⟨time, extract_description (pyStrip text) time, pyStrip text⟩
          | none => none
        else none) := by
      unfold parse_message
      rw [if_neg htext]
    cases hk : contains_clock_keywords (pyLower (pyStrip text)) with
    | false =>
      rw [hk] at hkinv
      constructor
      · constructor
        · intro h
          rw [hparse, hk] at h
          simp at h
        · rintro ⟨h1, h2, h3⟩
          rw [h2] at hkinv
          exact Bool.noConfusion hkinv
      · intro d hd
        rw [hparse, hk] at hd
        simp at hd
    | true =>
      rw [hk] at hkinv
      cases he : extract_time (pyStrip text) with
      | none =>
        have hfalse : (extract_time text).isSome = false := by
          rw [← htinv, he]
          rfl
        constructor
        · constructor
          · intro h
            rw [hparse, hk, he] at h
            simp at h
          · rintro ⟨h1, h2, h3⟩
            rw [h3] at hfalse
            exact Bool.noConfusion hfalse
        · intro d hd
          rw [hparse, hk, he] at hd
          simp at hd
      | some v =>
        constructor
        · constructor
          · intro _
            refine ⟨?_, ?_, ?_⟩
            · intro hstrip
              rw [hstrip] at hk
              exact absurd hk (by decide)
            · rw [← hkinv]
            · rw [← htinv, he]
              rfl
          · intro _
            rw [hparse, hk, he]
            rfl
        · intro d hd
          rw [hparse, hk, he] at hd
          simp only [if_true] at hd
          injection hd with hd2
          rw [← hd2]
          exact extract_time_format (pyStrip text) v he

/-- C1 witness: a concrete message with a keyword and a colon pair; the iff
gives a non-empty result and the returned time is well-formed. -/
theorem parse_message_nonempty_iff_witness :
    (parse_message "осталось 12:34".data).isSome = true ∧
    isHHMMSS (ClockData.time ⟨"12:34:00".data, fallbackDescription,
      "осталось 12:34".data⟩) = true :=
  ⟨(parse_message_nonempty_iff "осталось 12:34".data).1.mpr
      ⟨by decide, by decide, by decide⟩,
   (parse_message_nonempty_iff "осталось 12:34".data).2
      ⟨"12:34:00".data, fallbackDescription, "осталось 12:34".data⟩ (by decide)⟩

/-- The two-digit group consumes exactly its two characters. -/
theorem take2Digits_consumed (l : List Char) (g : Nat) (cs r : List Char)
    (h : take2Digits l = some (g, cs, r)) : cs ++ r = l ∧ cs ≠ [] := by
  match l with
  | [] => exact Option.noConfusion h
  | [a] => exact Option.noConfusion h
  | a :: b :: l2 =>
    simp only [take2Digits] at h
    by_cases hab : (isDigitCh a && isDigitCh b) = true
    · rw [if_pos hab] at h
      injection h with h2
      injection h2 with h3 h4
      injection h4 with h5 h6
      rw [← h5, ← h6]
      exact ⟨rfl, by simp⟩
    · rw [if_neg hab] at h
      exact Option.noConfusion h

/-- Every first-group candidate consumes an initial non-empty run. -/
theorem take12Cands_consumed (l : List Char) :
    ∀ cand ∈ take12Cands l, cand.2.1 ++ cand.2.2 = l ∧ cand.2.1 ≠ [] := by
  match l with
  | [] => intro cand hc; exact absurd hc (List.not_mem_nil cand)
  | [a] =>
    intro cand hc
    simp only [take12Cands] at hc
    by_cases ha : isDigitCh a = true
    · rw [if_pos ha] at hc
      rcases List.mem_singleton.mp hc with rfl
      exact ⟨rfl, by simp⟩
    · rw [if_neg ha] at hc
      exact absurd hc (List.not_mem_nil cand)
  | a :: b :: l2 =>
    intro cand hc
    simp only [take12Cands] at hc
    by_cases ha : isDigitCh a = true
    · rw [if_pos ha] at hc
      by_cases hb : isDigitCh b = true
      · rw [if_pos hb] at hc
        rcases List.mem_cons.mp hc with rfl | hc2
        · exact ⟨rfl, by simp⟩
        · rcases List.mem_singleton.mp hc2 with rfl
          exact ⟨rfl, by simp⟩
      · rw [if_neg hb] at hc
        rcases List.mem_singleton.mp hc with rfl
        exact ⟨rfl, by simp⟩
    · rw [if_neg ha] at hc
      exact absurd hc (List.not_mem_nil cand)

/-- The pair matcher consumes an initial non-empty run of the text. -/
theorem matchPairFrom_consumed (sep : Char → Bool) (g : Nat) (cs r l : List Char)
    (tm : TimeMatch) (hpre : cs ++ r = l)
    (h : matchPairFrom sep (g, cs, r) = some tm) :
    tm.consumed ++ tm.rest = l ∧ tm.consumed ≠ [] := by
  match r with
  | [] => exact Option.noConfusion h
  | s :: r2 =>
    simp only [matchPairFrom] at h
    by_cases hs : sep s = true
    · rw [if_pos hs] at h
      cases h2 : take2Digits r2 with
      | none =>
        rw [h2] at h
        exact Option.noConfusion h
      | some p =>
        rcases p with ⟨g2, c2, r3⟩
        rw [h2] at h
        injection h with h3
        rcases take2Digits_consumed r2 g2 c2 r3 h2 with ⟨h4, _⟩
        rw [← h3]
        constructor
        · show (cs ++ s :: c2) ++ r3 = l
          rw [← hpre, List.append_assoc]
          simp [h4]
        · show cs ++ s :: c2 ≠ []
          simp
    · rw [if_neg hs] at h
      exact Option.noConfusion h

/-- The third-group extension also consumes an initial non-empty run. -/
theorem extendThree_consumed (sep : Char → Bool) (g1v g2v : Nat) (g3v : Option Nat)
    (cs r l : List Char) (tm3 : TimeMatch) (hpre : cs ++ r = l)
    (h : extendThree sep ⟨g1v, g2v, g3v, cs, r⟩ = some tm3) :
    tm3.consumed ++ tm3.rest = l ∧ tm3.consumed ≠ [] := by
  match r with
  | [] => exact Option.noConfusion h
  | s :: r2 =>
    simp only [extendThree] at h
    by_cases hs : sep s = true
    · rw [if_pos hs] at h
      cases h2 : take2Digits r2 with
      | none =>
        rw [h2] at h
        exact Option.noConfusion h
      | some p =>
        rcases p with ⟨g3, c3, r4⟩
        rw [h2] at h
        injection h with h3
        rcases take2Digits_consumed r2 g3 c3 r4 h2 with ⟨h4, _⟩
        rw [← h3]
        constructor
        · show (cs ++ s :: c3) ++ r4 = l
          rw [← hpre, List.append_assoc]
          simp [h4]
        · show cs ++ s :: c3 ≠ []
          simp
    · rw [if_neg hs] at h
      exact Option.noConfusion h

/-- Every successful match splits the text into its non-empty consumed run
followed by the remainder. -/
theorem matchTimeAt_consumed (sep : Char → Bool) (mode : TMode) (l : List Char)
    (tm : TimeMatch) (h : matchTimeAt sep mode l = some tm) :
    tm.consumed ++ tm.rest = l ∧ tm.consumed ≠ [] := by
  unfold matchTimeAt at h
  rcases firstSome_some _ _ _ h with ⟨cand, hcand, hbody⟩
  rcases cand with ⟨g, cs, r⟩
  have hpre : cs ++ r = l := (take12Cands_consumed l (g, cs, r) hcand).1
  cases hp : matchPairFrom sep (g, cs, r) with
  | none =>
    rw [hp] at hbody
    exact Option.noConfusion hbody
  | some tm0 =>
    rw [hp] at hbody
    have htm0 := matchPairFrom_consumed sep g cs r l tm0 hpre hp
    cases mode with
    | two =>
      have hb : some tm0 = some tm := hbody
      injection hb with hb2
      rw [← hb2]
      exact htm0
    | three =>
      have hb : extendThree sep tm0 = some tm := hbody
      exact extendThree_consumed sep tm0.g1 tm0.g2 tm0.g3 tm0.consumed tm0.rest l tm
        htm0.1 hb
    | optThree =>
      have hb : (match extendThree sep tm0 with
          | some tm3 => some tm3
          | none => some tm0) = some tm := hbody
      cases he : extendThree sep tm0 with
      | some tm3 =>
        rw [he] at hb
        injection hb with hb2
        rw [← hb2]
        exact extendThree_consumed sep tm0.g1 tm0.g2 tm0.g3 tm0.consumed tm0.rest l tm3
          htm0.1 he
      | none =>
        rw [he] at hb
        injection hb with hb2
        rw [← hb2]
        exact htm0

/-- The remainder of a time-like match is strictly shorter than the text. -/
theorem matchTimeLike_rest_lt (l : List Char) (tm : TimeMatch)
    (h : matchTimeLike l = some tm) : tm.rest.length < l.length := by
  rcases matchTimeAt_consumed sepColonOrDot TMode.optThree l tm h with ⟨h1, h2⟩
  have h3 : tm.consumed.length + tm.rest.length = l.length := by
    rw [← h1, List.length_append]
  have h4 : 0 < tm.consumed.length := List.length_pos.mpr h2
  omega

/-- The substitution pass does not depend on the fuel once it covers the text
length. -/
theorem subTimeGo_irrel (f1 : Nat) :
    ∀ (f2 : Nat) (l : List Char), l.length ≤ f1 → l.length ≤ f2 →
      subTimeGo f1 l = subTimeGo f2 l := by
  induction f1 with
  | zero =>
    intro f2 l h1 h2
    have hl : l = [] := List.length_eq_zero.mp (Nat.le_zero.mp h1)
    subst hl
    cases f2 with
    | zero => rfl
    | succ f2 => rfl
  | succ f1 ih =>
    intro f2 l h1 h2
    cases l with
    | nil =>
      cases f2 with
      | zero => rfl
      | succ f2 => rfl
    | cons c t =>
      cases f2 with
      | zero =>
        exact absurd h2 (by simp)
      | succ f2 =>
        simp only [subTimeGo]
        cases hm : matchTimeLike (c :: t) with
        | some tm =>
          have hlt := matchTimeLike_rest_lt (c :: t) tm hm
          simp only [List.length_cons] at hlt h1 h2
          exact ih f2 tm.rest (by omega) (by omega)
        | none =>
          simp only [List.length_cons] at h1 h2
          rw [ih f2 t (by omega) (by omega)]

/-- Equation: substituting in a text with a match at its head continues after
the matched span. -/
theorem subTimeAll_cons_match (c : Char) (t : List Char) (tm : TimeMatch)
    (h : matchTimeLike (c :: t) = some tm) :
    subTimeAll (c :: t) = subTimeAll tm.rest := by
  show subTimeGo (c :: t).length (c :: t) = _
  simp only [List.length_cons, subTimeGo, h]
  have hlt := matchTimeLike_rest_lt (c :: t) tm h
  simp only [List.length_cons] at hlt
  exact subTimeGo_irrel t.length tm.rest.length tm.rest (by omega) (by omega)

/-- Equation: substituting in a text without a match at its head keeps the
head character. -/
theorem subTimeAll_cons_nomatch (c : Char) (t : List Char)
    (h : matchTimeLike (c :: t) = none) :
    subTimeAll (c :: t) = c :: subTimeAll t := by
  show subTimeGo (c :: t).length (c :: t) = _
  simp only [List.length_cons, subTimeGo, h]
  rfl

/-- The leftmost match position fits in the text and has positive length. -/
theorem firstMatchPos_bound (l : List Char) (i len : Nat)
    (h : firstMatchPos l = some (i, len)) : i + len ≤ l.length ∧ 0 < len := by
  induction l generalizing i len with
  | nil => exact Option.noConfusion h
  | cons c t ih =>
    simp only [firstMatchPos] at h
    cases hm : matchTimeLike (c :: t) with
    | some tm =>
      rw [hm] at h
      injection h with h2
      injection h2 with h3 h4
      rcases matchTimeAt_consumed sepColonOrDot TMode.optThree (c :: t) tm hm with ⟨hc1, hc2⟩
      have h5 : tm.consumed.length + tm.rest.length = (c :: t).length := by
        rw [← hc1, List.length_append]
      have h6 : 0 < tm.consumed.length := List.length_pos.mpr hc2
      rw [← h3, ← h4]
      simp only [List.length_cons] at h5 ⊢
      omega
    | none =>
      rw [hm] at h
      cases hp : firstMatchPos t with
      | none =>
        rw [hp] at h
        exact Option.noConfusion h
      | some p =>
        rcases p with ⟨i2, len2⟩
        rw [hp] at h
        injection h with h2
        injection h2 with h3 h4
        rcases ih i2 len2 hp with ⟨h5, h6⟩
        rw [← h3, ← h4]
        simp only [List.length_cons]
        omega

/-- The index-based removal does not depend on the fuel once it covers the
text length. -/
theorem removeTimesGo_irrel (f1 : Nat) :
    ∀ (f2 : Nat) (l : List Char), l.length ≤ f1 → l.length ≤ f2 →
      removeTimesGo f1 l = removeTimesGo f2 l := by
  induction f1 with
  | zero =>
    intro f2 l h1 h2
    have hl : l = [] := List.length_eq_zero.mp (Nat.le_zero.mp h1)
    subst hl
    cases f2 with
    | zero => rfl
    | succ f2 =>
      simp [removeTimesGo, firstMatchPos]
  | succ f1 ih =>
    intro f2 l h1 h2
    cases hp : firstMatchPos l with
    | none =>
      cases f2 with
      | zero => simp [removeTimesGo, hp]
      | succ f2 => simp [removeTimesGo, hp]
    | some p =>
      rcases p with ⟨i, len⟩
      rcases firstMatchPos_bound l i len hp with ⟨hb1, hb2⟩
      have hlpos : l ≠ [] := by
        intro he
        rw [he] at hp
        exact Option.noConfusion hp
      have hlp : 0 < l.length := List.length_pos.mpr hlpos
      cases f2 with
      | zero => omega
      | succ f2 =>
        simp only [removeTimesGo, hp]
        have hdrop : (l.drop (i + len)).length = l.length - (i + len) :=
          List.length_drop _ _
        rw [ih f2 (l.drop (i + len)) (by omega) (by omega)]

/-- Equation: the removal stops when no match exists. -/
theorem removeAllTimes_none (l : List Char) (h : firstMatchPos l = none) :
    removeAllTimes l = l := by
  cases l with
  | nil => rfl
  | cons c t =>
    show removeTimesGo (c :: t).length (c :: t) = _
    simp only [List.length_cons, removeTimesGo, h]

/-- Equation: the removal deletes the leftmost match span and continues after
it. -/
theorem removeAllTimes_some (l : List Char) (i len : Nat)
    (h : firstMatchPos l = some (i, len)) :
    removeAllTimes l = l.take i ++ removeAllTimes (l.drop (i + len)) := by
  cases l with
  | nil => exact Option.noConfusion h
  | cons c t =>
    show removeTimesGo (c :: t).length (c :: t) = _
    simp only [List.length_cons, removeTimesGo, h]
    rcases firstMatchPos_bound (c :: t) i len h with ⟨hb1, hb2⟩
    simp only [List.length_cons] at hb1
    have hdrop : ((c :: t).drop (i + len)).length = t.length + 1 - (i + len) := by
      rw [List.length_drop]
      rfl
    rw [removeTimesGo_irrel t.length ((c :: t).drop (i + len)).length
      ((c :: t).drop (i + len)) (by omega) (by omega)]
    rfl

/-- The index-based repeated leftmost removal computes exactly the result of
the left-to-right substitution pass. -/
theorem removeAllTimes_eq_subTimeAll (l : List Char) :
    removeAllTimes l = subTimeAll l := by
  have H : ∀ (n : Nat) (l2 : List Char), l2.length ≤ n →
      removeAllTimes l2 = subTimeAll l2 := by
    intro n
    induction n with
    | zero =>
      intro l2 h
      have hl : l2 = [] := List.length_eq_zero.mp (Nat.le_zero.mp h)
      subst hl
      rfl
    | succ n ih =>
      intro l2 h
      cases l2 with
      | nil => rfl
      | cons c t =>
        cases hm : matchTimeLike (c :: t) with
        | some tm =>
          rcases matchTimeAt_consumed sepColonOrDot TMode.optThree (c :: t) tm hm
            with ⟨hc1, hc2⟩
          have hfp : firstMatchPos (c :: t) = some (0, tm.consumed.length) := by
            simp only [firstMatchPos, hm]
          rw [removeAllTimes_some (c :: t) 0 tm.consumed.length hfp]
          rw [subTimeAll_cons_match c t tm hm]
          have hdrop : (c :: t).drop (0 + tm.consumed.length) = tm.rest := by
            rw [Nat.zero_add, ← hc1]
            exact List.drop_left tm.consumed tm.rest
          rw [hdrop]
          have hrest := matchTimeLike_rest_lt (c :: t) tm hm
          simp only [List.length_cons] at hrest h
          rw [List.take_zero, List.nil_append]
          exact ih tm.rest (by omega)
        | none =>
          rw [subTimeAll_cons_nomatch c t hm]
          cases hp : firstMatchPos t with
          | none =>
            have hfp : firstMatchPos (c :: t) = none := by
              simp only [firstMatchPos, hm, hp]
              rfl
            rw [removeAllTimes_none (c :: t) hfp]
            have ht : removeAllTimes t = t := removeAllTimes_none t hp
            simp only [List.length_cons] at h
            rw [← ih t (by omega), ht]
          | some p =>
            rcases p with ⟨i, len⟩
            have hfp : firstMatchPos (c :: t) = some (i + 1, len) := by
              simp only [firstMatchPos, hm, hp]
              rfl
            rw [removeAllTimes_some (c :: t) (i + 1) len hfp]
            have htake : (c :: t).take (i + 1) = c :: t.take i := rfl
            have hdrop : (c :: t).drop (i + 1 + len) = t.drop (i + len) := by
              have harith : i + 1 + len = (i + len) + 1 := by omega
              rw [harith]
              exact List.drop_succ_cons
            rw [htake, hdrop, List.cons_append]
            rw [← removeAllTimes_some t i len hp]
            simp only [List.length_cons] at h
            rw [ih t (by omega)]
  exact H l.length l (Nat.le_refl _)

/-- C5 counterexample: with two time-like substrings in the text, the code
removes both, while the claim predicts that only the first one is removed;
the two cleanups disagree on a concrete message. -/
theorem extract_description_first_only_counterexample :
    extract_description "осталось 11:22 and 33:44 here".data "11:22:00".data =
      "осталось and here".data ∧
    extract_description_claim "осталось 11:22 and 33:44 here".data =
      "осталось and 33:44 here".data ∧
    "осталось and here".data ≠ "осталось and 33:44 here".data := by
  refine ⟨by decide, by decide, by decide⟩

/-- C5 amended: the description cleanup removes every leftmost-first
non-overlapping time-like substring and the fixed clock emoji set, collapses
whitespace and trims, falls back on results shorter than ten characters and
truncates to at most 200 characters; equivalently, the code agrees with the
amended index-based cleanup on every input. -/
theorem extract_description_removes_all_times (text time_str : List Char) :
    extract_description text time_str = extract_description_amended text := by
  unfold extract_description extract_description_amended
  rw [removeAllTimes_eq_subTimeAll]
